import Mathlib

/-!
Verification of the `graphs` repository: a 2D grid path-search engine
(src/lib/grid.py) and a small generic graph library
(src/lib/base_graph.py, directed_graph.py, undirected_graph.py).

The Python code is shallowly embedded: mutable objects become
immutable structures with explicit update functions, fallible
operations (Python exceptions) return `Except PyErr`, and every
source of randomness (random.shuffle, random.randrange,
random.sample) becomes an explicit oracle argument so that theorems
can quantify over every outcome of the randomness.
-/

namespace GraphsRepo

/-- Python exception values raised by the embedded code. -/
inductive PyErr
  | indexError
  | keyError
  | typeError
  | exception (msg : String)
deriving DecidableEq, Repr

/-- Python list indexing `l[i]`: indices in `[0, len)` read directly,
indices in `[-len, 0)` wrap to `len + i`, anything else raises IndexError. -/
def pyIdx {α : Type} (l : List α) (i : Int) : Except PyErr α :=
  if h : 0 ≤ i ∧ i < l.length then
    .ok (l.get ⟨i.toNat, by omega⟩)
  else if h2 : -(l.length : Int) ≤ i ∧ i < 0 then
    .ok (l.get ⟨(i + l.length).toNat, by omega⟩)
  else .error .indexError

/-- CellState from src/lib/grid.py (an IntEnum with values 1..6;
none of the values is 0, so only None is falsy in `revert_state`). -/
inductive CellState
  | ACTIVE
  | INACTIVE
  | SLOW
  | CURRENT
  | VISITED
  | GOAL
deriving DecidableEq, Repr

/-- The `name` attribute of a CellState member, used by `to_dict`. -/
def CellState.pyName : CellState → String
  | .ACTIVE => "ACTIVE"
  | .INACTIVE => "INACTIVE"
  | .SLOW => "SLOW"
  | .CURRENT => "CURRENT"
  | .VISITED => "VISITED"
  | .GOAL => "GOAL"

/-- `CellState[name]` lookup, used by `from_dict`; raises KeyError on
an unknown name. -/
def CellState.ofPyName (s : String) : Except PyErr CellState :=
  if s = "ACTIVE" then .ok .ACTIVE
  else if s = "INACTIVE" then .ok .INACTIVE
  else if s = "SLOW" then .ok .SLOW
  else if s = "CURRENT" then .ok .CURRENT
  else if s = "VISITED" then .ok .VISITED
  else if s = "GOAL" then .ok .GOAL
  else .error .keyError

/-- Cell from src/lib/grid.py: a state plus the previous state kept
for `revert_state`. Freshly constructed cells are ACTIVE with no
previous state. -/
structure Cell where
  state : CellState
  prev_state : Option CellState
deriving DecidableEq, Repr

/-- A default-constructed `Cell()`. -/
def Cell.init : Cell := ⟨.ACTIVE, none⟩

/-- Cell.change_state: remembers the old state and installs the new one. -/
def Cell.change_state (c : Cell) (new_state : CellState) : Cell :=
  { state := new_state, prev_state := some c.state }

/-- Cell.revert_state: raises when there is no previous state
(`if not self.prev_state`; all enum values are truthy, only None is
falsy), otherwise restores the previous state. -/
def Cell.revert_state (c : Cell) : Except PyErr Cell :=
  match c.prev_state with
  | none => .error (.exception "no prev state")
  | some p => .ok { c with state := p }

/-- Cell.make_current. -/
def Cell.make_current (c : Cell) : Cell :=
  { state := .CURRENT, prev_state := some c.state }

/-- Cell.make_goal. -/
def Cell.make_goal (c : Cell) : Cell :=
  { state := .GOAL, prev_state := some c.state }

/-- Cell.flip_active: INACTIVE becomes ACTIVE; every other state
(ACTIVE, SLOW, CURRENT, VISITED, GOAL) becomes INACTIVE. The source
performs no state check and raises no exception. -/
def Cell.flip_active (c : Cell) : Cell :=
  if c.state = .INACTIVE then c.change_state .ACTIVE
  else c.change_state .INACTIVE

/-- Cell.cell_cost: 1 for ACTIVE/CURRENT/GOAL, 5 for SLOW, raises for
INACTIVE and VISITED. -/
def Cell.cell_cost (c : Cell) : Except PyErr Nat :=
  match c.state with
  | .ACTIVE | .CURRENT | .GOAL => .ok 1
  | .SLOW => .ok 5
  | _ => .error (.exception "")

/-- A grid coordinate (row, col); Python works with int tuples. -/
abbrev Pos : Type := Int × Int

/-- GridGraph from src/lib/grid.py. `cells` is indexed column-first:
`cells` has `width` columns of `height` cells each, and
`at(row, col)` reads `cells[col][row]`. -/
structure GridGraph where
  cells : List (List Cell)
  width : Nat
  height : Nat
  current : Option Pos
  goal : Option Pos
deriving DecidableEq, Repr

/-- Structural well-formedness of the cell matrix: `width` columns,
each of length `height` (true of every grid the constructor builds). -/
def GridGraph.WFdims (g : GridGraph) : Prop :=
  g.cells.length = g.width ∧ ∀ c ∈ g.cells, c.length = g.height

instance (g : GridGraph) : Decidable g.WFdims := by
  unfold GridGraph.WFdims; infer_instance

/-- GridGraph.at: `self._cells[col][row]` with Python list indexing
semantics (negative indices wrap, out-of-range raises IndexError). -/
def GridGraph.atCell (g : GridGraph) (row col : Int) : Except PyErr Cell := do
  let column ← pyIdx g.cells col
  pyIdx column row

theorem pyIdx_ok_iff {α : Type} (l : List α) (i : Int) :
    (∃ a, pyIdx l i = .ok a) ↔ (-(l.length : Int) ≤ i ∧ i < l.length) := by
  unfold pyIdx
  split_ifs with h1 h2
  · simpa using by omega
  · simpa using by omega
  · simpa using by omega

theorem pyIdx_ok_mem {α : Type} {l : List α} {i : Int} {a : α}
    (h : pyIdx l i = .ok a) : a ∈ l := by
  unfold pyIdx at h
  split_ifs at h with h1 h2
  · simp only [Except.ok.injEq] at h
    subst h; exact List.get_mem _ _ _
  · simp only [Except.ok.injEq] at h
    subst h; exact List.get_mem _ _ _

theorem pyIdx_neg_wrap {α : Type} (l : List α) (i : Int)
    (h1 : -(l.length : Int) ≤ i) (h2 : i < 0) :
    pyIdx l i = pyIdx l (i + l.length) := by
  have hA : ¬(0 ≤ i ∧ i < (l.length : Int)) := by omega
  have hB : -(l.length : Int) ≤ i ∧ i < 0 := ⟨h1, h2⟩
  have hC : 0 ≤ i + l.length ∧ i + l.length < (l.length : Int) := by omega
  rw [pyIdx, pyIdx, dif_neg hA, dif_pos hB, dif_pos hC]

theorem atCell_eq (g : GridGraph) (row col : Int) :
    g.atCell row col =
      match pyIdx g.cells col with
      | .ok column => pyIdx column row
      | .error e => .error e := by
  unfold GridGraph.atCell
  cases pyIdx g.cells col <;> rfl

/-- A concrete 1-column, 2-row grid used to exhibit Python's negative
index wrap-around in `at`. -/
def gridNeg : GridGraph :=
  { cells := [[⟨.ACTIVE, none⟩, ⟨.SLOW, none⟩]]
    width := 1, height := 2, current := none, goal := none }

/-- C7 counterexample: on a well-formed 1 by 2 grid, `at(-1, 0)` does
not raise a bounds error; it silently wraps to the last row and
returns that cell, contradicting the claim that every negative
coordinate raises. -/
theorem atCell_neg_no_error :
    gridNeg.WFdims ∧ gridNeg.atCell (-1) 0 = .ok ⟨.SLOW, none⟩ := by
  constructor
  · decide
  · rfl

/-- C7 (amended): given a structurally well-formed grid, `at(row, col)`
succeeds exactly when `-height ≤ row < height` and
`-width ≤ col < width`; coordinates with `row ≥ height`, `col ≥ width`,
`row < -height` or `col < -width` raise IndexError, while negative
in-range coordinates are interpreted Python-style as wrapping from the
end (`row + height`, `col + width`) rather than raising. -/
theorem atCell_bounds (g : GridGraph) (hg : g.WFdims) :
    (∀ row col : Int,
      (∃ c, g.atCell row col = .ok c) ↔
        (-(g.height : Int) ≤ row ∧ row < g.height ∧
         -(g.width : Int) ≤ col ∧ col < g.width))
    ∧ (∀ row col : Int, -(g.height : Int) ≤ row → row < 0 →
        -(g.width : Int) ≤ col → col < g.width →
        g.atCell row col = g.atCell (row + g.height) col)
    ∧ (∀ row col : Int, -(g.width : Int) ≤ col → col < 0 →
        g.atCell row col = g.atCell row (col + g.width)) := by
  obtain ⟨hw, hh⟩ := hg
  refine ⟨?_, ?_, ?_⟩
  · intro row col
    rw [atCell_eq]
    rcases hcol : pyIdx g.cells col with e | column
    · have : ¬∃ a, pyIdx g.cells col = .ok a := by
        simp [hcol]
      rw [pyIdx_ok_iff, hw] at this
      constructor
      · rintro ⟨c, hc⟩; simp at hc
      · intro hb; exact absurd ⟨hb.2.2.1, hb.2.2.2⟩ this
    · have hcl : column.length = g.height := hh _ (pyIdx_ok_mem hcol)
      have hcb : -(g.width : Int) ≤ col ∧ col < g.width := by
        have := (pyIdx_ok_iff g.cells col).mp ⟨column, hcol⟩
        rwa [hw] at this
      rw [pyIdx_ok_iff, hcl]
      constructor
      · intro hr; exact ⟨hr.1, hr.2, hcb.1, hcb.2⟩
      · intro hb; exact ⟨hb.1, hb.2.1⟩
  · intro row col h1 h2 h3 h4
    rw [atCell_eq, atCell_eq]
    rcases hcol : pyIdx g.cells col with e | column
    · rfl
    · have hcl : column.length = g.height := hh _ (pyIdx_ok_mem hcol)
      rw [← hcl] at h1 ⊢
      exact pyIdx_neg_wrap column row h1 h2
  · intro row col h1 h2
    rw [GridGraph.atCell, GridGraph.atCell, ← hw] at *
    rw [pyIdx_neg_wrap g.cells col h1 h2]

/-- C7 witness: the amended bounds statement applied to the concrete
1 by 2 grid, with all hypotheses discharged by evaluation. -/
theorem atCell_bounds_witness :
    gridNeg.WFdims ∧
    ((∃ c, gridNeg.atCell 1 0 = .ok c) ↔
      (-(2 : Int) ≤ 1 ∧ (1 : Int) < 2 ∧ -(1 : Int) ≤ 0 ∧ (0 : Int) < 1)) := by
  refine ⟨by decide, ?_⟩
  have h := (atCell_bounds gridNeg (by decide)).1 1 0
  simpa [gridNeg] using h

/-- The list slot a successful Python index access refers to: the
index itself when non-negative, otherwise shifted by the length. -/
def pyNorm (len : Nat) (i : Int) : Nat :=
  if 0 ≤ i then i.toNat else (i + len).toNat

/-- Mutating a cell in place through `self.at(row, col)` followed by a
fallible method call on the returned object: the two index reads are
the only operations that can raise IndexError. -/
def GridGraph.modifyCellE (g : GridGraph) (row col : Int)
    (f : Cell → Except PyErr Cell) : Except PyErr GridGraph := do
  let column ← pyIdx g.cells col
  let cell ← pyIdx column row
  let cell2 ← f cell
  .ok { g with
        cells := g.cells.set (pyNorm g.cells.length col)
          (column.set (pyNorm column.length row) cell2) }

/-- Mutating a cell in place through `self.at(row, col)` with an
infallible method such as make_current or change_state. -/
def GridGraph.modifyCell (g : GridGraph) (row col : Int) (f : Cell → Cell) :
    Except PyErr GridGraph :=
  g.modifyCellE row col (fun c => .ok (f c))

/-- GridGraph.set_current: records the new current position, marks its
cell CURRENT, and if there was a previous current cell, reverts it and
then marks it VISITED. -/
def GridGraph.set_current (g : GridGraph) (row col : Int) : Except PyErr GridGraph := do
  let prev_current := g.current
  let g1 : GridGraph := { g with current := some (row, col) }
  let g2 ← g1.modifyCell row col Cell.make_current
  match prev_current with
  | none => .ok g2
  | some pc => do
    let g3 ← g2.modifyCellE pc.1 pc.2 Cell.revert_state
    g3.modifyCell pc.1 pc.2 (fun c => c.change_state .VISITED)

/-- The GridGraph constructor: a width-column by height-row matrix of
fresh ACTIVE cells; the initial position (if given, and any tuple is
truthy) is made current, the goal marker is stored and its cell marked
GOAL, and each coordinate of the inactives list is marked INACTIVE. -/
def gridInit (width height : Nat) (initial_position goal_position : Option Pos)
    (inactives : Option (List Pos)) : Except PyErr GridGraph := do
  let g0 : GridGraph :=
    { cells := List.replicate width (List.replicate height Cell.init)
      width := width, height := height, current := none, goal := none }
  let g1 ← match initial_position with
    | some p => g0.set_current p.1 p.2
    | none => .ok g0
  let g2 : GridGraph := { g1 with goal := goal_position }
  let g3 ← match goal_position with
    | some p => g2.modifyCell p.1 p.2 Cell.make_goal
    | none => .ok g2
  match inactives with
  | none => .ok g3
  | some l =>
    l.foldlM (fun g p => GridGraph.modifyCell g p.1 p.2
      (fun c => c.change_state .INACTIVE)) g3

/-- The dictionary produced by GridGraph.to_dict: width, height, the
column-major matrix of state names, and the current/goal markers. -/
structure GridSnapshot where
  width : Nat
  height : Nat
  cells : List (List String)
  current : Option Pos
  goal : Option Pos
deriving DecidableEq, Repr

/-- GridGraph.to_dict. -/
def GridGraph.to_dict (g : GridGraph) : GridSnapshot :=
  { width := g.width
    height := g.height
    cells := g.cells.map (fun col => col.map (fun c => c.state.pyName))
    current := g.current
    goal := g.goal }

/-- Inner loop of GridGraph.from_dict: write the parsed states of one
serialized column into column `ci`, rows `ri, ri+1, ...` (the
enumerate counter). -/
def overwriteCol (g : GridGraph) (ci : Nat) (ri : Nat) :
    List String → Except PyErr GridGraph
  | [] => .ok g
  | name :: rest => do
    let st ← CellState.ofPyName name
    let g2 ← g.modifyCell (ri : Int) (ci : Int) (fun c => { c with state := st })
    overwriteCol g2 ci (ri + 1) rest

/-- Outer loop of GridGraph.from_dict over the serialized columns. -/
def overwriteCells (g : GridGraph) (ci : Nat) :
    List (List String) → Except PyErr GridGraph
  | [] => .ok g
  | col :: rest => do
    let g2 ← overwriteCol g ci 0 col
    overwriteCells g2 (ci + 1) rest

/-- GridGraph.from_dict: rebuild a grid through the constructor with
the stored dimensions and markers, then overwrite every cell state
with the stored state names. -/
def GridGraph.from_dict (d : GridSnapshot) : Except PyErr GridGraph := do
  let g0 ← gridInit d.width d.height d.current d.goal none
  overwriteCells g0 0 d.cells

/-- A marker position (current or goal) that is either absent or a
properly in-bounds coordinate of the grid. -/
def GridGraph.markerOk (g : GridGraph) (op : Option Pos) : Prop :=
  match op with
  | none => True
  | some p => 0 ≤ p.1 ∧ p.1 < (g.height : Int) ∧ 0 ≤ p.2 ∧ p.2 < (g.width : Int)

instance (g : GridGraph) (op : Option Pos) : Decidable (g.markerOk op) :=
  match op with
  | none => isTrue trivial
  | some p =>
    inferInstanceAs (Decidable (0 ≤ p.1 ∧ p.1 < (g.height : Int) ∧
      0 ≤ p.2 ∧ p.2 < (g.width : Int)))

/-- Full well-formedness: consistent matrix dimensions and in-bounds
current/goal markers. Every grid built by the constructor from
in-bounds arguments satisfies this. -/
def GridGraph.WF (g : GridGraph) : Prop :=
  g.WFdims ∧ g.markerOk g.current ∧ g.markerOk g.goal

instance (g : GridGraph) : Decidable g.WF := by
  unfold GridGraph.WF; infer_instance

theorem pyIdx_natCast {α : Type} (l : List α) (i : Nat) (h : i < l.length) :
    pyIdx l (i : Int) = .ok (l.get ⟨i, h⟩) := by
  have hc : 0 ≤ (i : Int) ∧ (i : Int) < l.length :=
    ⟨Int.natCast_nonneg i, by exact_mod_cast h⟩
  rw [pyIdx, dif_pos hc]
  rfl

theorem pyNorm_nonneg (len : Nat) (i : Int) (h : 0 ≤ i) :
    pyNorm len i = i.toNat := by
  rw [pyNorm, if_pos h]

theorem ofPyName_pyName (st : CellState) :
    CellState.ofPyName st.pyName = .ok st := by
  cases st <;> rfl

theorem modifyCell_ok (g : GridGraph) (row col : Int) (colL : List Cell)
    (c : Cell) (f : Cell → Cell)
    (hcol : g.cells.get? col.toNat = some colL) (h0c : 0 ≤ col)
    (hc : colL.get? row.toNat = some c) (h0r : 0 ≤ row) :
    g.modifyCell row col f =
      .ok { g with cells := g.cells.set col.toNat (colL.set row.toNat (f c)) } := by
  obtain ⟨hcLt, hcEq⟩ := List.get?_eq_some.mp hcol
  obtain ⟨hrLt, hrEq⟩ := List.get?_eq_some.mp hc
  have h1 : pyIdx g.cells col = .ok colL := by
    have hcast : ((col.toNat : Nat) : Int) = col := Int.toNat_of_nonneg h0c
    rw [← hcast, pyIdx_natCast g.cells col.toNat hcLt, hcEq]
  have h2 : pyIdx colL row = .ok c := by
    have hcast : ((row.toNat : Nat) : Int) = row := Int.toNat_of_nonneg h0r
    rw [← hcast, pyIdx_natCast colL row.toNat hrLt, hrEq]
  unfold GridGraph.modifyCell GridGraph.modifyCellE
  rw [h1]
  show (pyIdx colL row >>= _) = _
  rw [h2]
  show Except.ok _ = _
  rw [pyNorm_nonneg _ _ h0c, pyNorm_nonneg _ _ h0r]

/-- Retrieve a column together with its length from a dimension
hypothesis. -/
theorem cells_get_of_dims {w h : Nat} (cells : List (List Cell))
    (hlen : cells.length = w) (hcols : ∀ col ∈ cells, col.length = h)
    (i : Nat) (hi : i < w) :
    ∃ colL, cells.get? i = some colL ∧ colL.length = h := by
  have hi2 : i < cells.length := by omega
  exact ⟨cells.get ⟨i, hi2⟩, List.get?_eq_get hi2,
    hcols _ (List.get_mem _ _ _)⟩

/-- In-bounds cell mutation succeeds and preserves the dimensions and
the marker fields. -/
theorem modifyCell_dims {w h : Nat} (g : GridGraph) (row col : Int) (f : Cell → Cell)
    (hdW : g.cells.length = w) (hdH : ∀ colL ∈ g.cells, colL.length = h)
    (h0r : 0 ≤ row) (hrb : row < (h : Int)) (h0c : 0 ≤ col) (hcb : col < (w : Int)) :
    ∃ colL c, g.cells.get? col.toNat = some colL ∧
      colL.get? row.toNat = some c ∧
      g.modifyCell row col f =
        .ok { g with cells := g.cells.set col.toNat (colL.set row.toNat (f c)) } ∧
      (g.cells.set col.toNat (colL.set row.toNat (f c))).length = w ∧
      (∀ colL2 ∈ g.cells.set col.toNat (colL.set row.toNat (f c)), colL2.length = h) := by
  obtain ⟨colL, hcol, hcolLen⟩ := cells_get_of_dims g.cells hdW hdH col.toNat (by omega)
  have hr2 : row.toNat < colL.length := by omega
  have hc : colL.get? row.toNat = some (colL.get ⟨row.toNat, hr2⟩) := List.get?_eq_get hr2
  refine ⟨colL, _, hcol, hc, modifyCell_ok g row col colL _ f hcol h0c hc h0r, ?_, ?_⟩
  · rw [List.length_set]; exact hdW
  · intro colL2 hmem
    rcases List.mem_or_eq_of_mem_set hmem with hm | hm
    · exact hdH _ hm
    · subst hm; rw [List.length_set]; exact hcolLen

theorem except_ok_bind {α β : Type} (a : α) (f : α → Except PyErr β) :
    (Except.ok a >>= f : Except PyErr β) = f a := rfl

theorem atCell_of_get? (g : GridGraph) (r c : Nat) (colL : List Cell) (cell : Cell)
    (hcol : g.cells.get? c = some colL) (hc : colL.get? r = some cell) :
    g.atCell (r : Int) (c : Int) = .ok cell := by
  obtain ⟨hcLt, hcEq⟩ := List.get?_eq_some.mp hcol
  obtain ⟨hrLt, hrEq⟩ := List.get?_eq_some.mp hc
  unfold GridGraph.atCell
  rw [pyIdx_natCast g.cells c hcLt, hcEq, except_ok_bind,
    pyIdx_natCast colL r hrLt, hrEq]

theorem overwriteCol_roundtrip (colSrc : List Cell) :
    ∀ (g : GridGraph) (ci ri : Nat) (col : List Cell),
    g.cells.get? ci = some col →
    ri + colSrc.length = col.length →
    ∃ g2 col2,
      overwriteCol g ci ri (colSrc.map (fun c => c.state.pyName)) = .ok g2 ∧
      g2.width = g.width ∧ g2.height = g.height ∧
      g2.current = g.current ∧ g2.goal = g.goal ∧
      g2.cells.length = g.cells.length ∧
      (∀ cj, cj ≠ ci → g2.cells.get? cj = g.cells.get? cj) ∧
      g2.cells.get? ci = some col2 ∧ col2.length = col.length ∧
      (∀ rj, rj < ri → col2.get? rj = col.get? rj) ∧
      (∀ k, (hk : k < colSrc.length) → ∃ c, col.get? (ri + k) = some c ∧
        col2.get? (ri + k) = some { c with state := (colSrc.get ⟨k, hk⟩).state }) := by
  induction colSrc with
  | nil =>
    intro g ci ri col hcol _
    exact ⟨g, col, rfl, rfl, rfl, rfl, rfl, rfl, fun _ _ => rfl, hcol, rfl,
      fun _ _ => rfl, fun k hk => absurd hk (Nat.not_lt_zero k)⟩
  | cons c0 rest ih =>
    intro g ci ri col hcol hlen
    simp only [List.length_cons] at hlen
    have hciLt : ci < g.cells.length := (List.get?_eq_some.mp hcol).1
    have hriLt : ri < col.length := by omega
    have hc0 : col.get? ri = some (col.get ⟨ri, hriLt⟩) := List.get?_eq_get hriLt
    have hstep := modifyCell_ok g (ri : Int) (ci : Int) col (col.get ⟨ri, hriLt⟩)
      (fun x => { x with state := c0.state }) hcol (Int.natCast_nonneg ci)
      hc0 (Int.natCast_nonneg ri)
    obtain ⟨g2, col2, hrun, hw, hh, hcu, hgo, hclen, hoth, hcol2, hc2len, hpre, hmain⟩ :=
      ih { g with cells := (g.cells.set ci
            (col.set ri { col.get ⟨ri, hriLt⟩ with state := c0.state })) }
        ci (ri + 1) (col.set ri { col.get ⟨ri, hriLt⟩ with state := c0.state })
        (List.get?_set_eq_of_lt _ hciLt)
        (by rw [List.length_set]; omega)
    refine ⟨g2, col2, ?_, hw, hh, hcu, hgo,
      hclen.trans (List.length_set ..), ?_, hcol2,
      hc2len.trans (List.length_set ..), ?_, ?_⟩
    · simp only [List.map_cons, overwriteCol, ofPyName_pyName, except_ok_bind]
      rw [hstep]
      simp only [except_ok_bind]
      exact hrun
    · intro cj hcj
      exact (hoth cj hcj).trans (List.get?_set_ne _ _ (Ne.symm hcj))
    · intro rj hrj
      exact (hpre rj (by omega)).trans (List.get?_set_ne _ _ (by omega))
    · intro k hk
      cases k with
      | zero =>
        refine ⟨col.get ⟨ri, hriLt⟩, by simpa using hc0, ?_⟩
        have h1 := hpre ri (Nat.lt_succ_self ri)
        rw [Nat.add_zero, h1, List.get?_set_eq_of_lt _ hriLt]
        rfl
      | succ j =>
        have hj : j < rest.length := by
          simp only [List.length_cons] at hk; omega
        obtain ⟨c, hcg, hcg2⟩ := hmain j hj
        rw [List.get?_set_ne _ col (by omega)] at hcg
        refine ⟨c, ?_, ?_⟩
        · rw [show ri + (j + 1) = ri + 1 + j by omega]; exact hcg
        · rw [show ri + (j + 1) = ri + 1 + j by omega]; exact hcg2

theorem overwriteCells_roundtrip (cellsSrc : List (List Cell)) :
    ∀ (g : GridGraph) (ci : Nat),
    (∀ k colS, cellsSrc.get? k = some colS →
      ∃ colG, g.cells.get? (ci + k) = some colG ∧ colS.length = colG.length) →
    ∃ g2,
      overwriteCells g ci (cellsSrc.map (fun col => col.map (fun c => c.state.pyName)))
        = .ok g2 ∧
      g2.width = g.width ∧ g2.height = g.height ∧
      g2.current = g.current ∧ g2.goal = g.goal ∧
      g2.cells.length = g.cells.length ∧
      (∀ cj, cj < ci → g2.cells.get? cj = g.cells.get? cj) ∧
      (∀ k colS, cellsSrc.get? k = some colS →
        ∃ colG col2, g.cells.get? (ci + k) = some colG ∧
          g2.cells.get? (ci + k) = some col2 ∧ col2.length = colG.length ∧
          (∀ r c cG, colS.get? r = some c → colG.get? r = some cG →
            col2.get? r = some { cG with state := c.state })) := by
  induction cellsSrc with
  | nil =>
    intro g ci _
    exact ⟨g, rfl, rfl, rfl, rfl, rfl, rfl, fun _ _ => rfl,
      fun k colS h => by simp at h⟩
  | cons colS0 rest ih =>
    intro g ci hmatch
    obtain ⟨colG0, hcolG0, hlen0⟩ := hmatch 0 colS0 rfl
    have hcolG0' : g.cells.get? ci = some colG0 := by
      rwa [Nat.add_zero] at hcolG0
    obtain ⟨g1, col1, hrun1, hw1, hh1, hcu1, hgo1, hclen1, hoth1, hcol1, hc1len,
      _hpre1, hmain1⟩ :=
      overwriteCol_roundtrip colS0 g ci 0 colG0 hcolG0' (by omega)
    have hrest : ∀ k colS, rest.get? k = some colS →
        ∃ colG, g1.cells.get? (ci + 1 + k) = some colG ∧ colS.length = colG.length := by
      intro k colS hk
      obtain ⟨colG, hcolG, hlen⟩ := hmatch (k + 1) colS hk
      refine ⟨colG, ?_, hlen⟩
      rw [hoth1 _ (by omega), show ci + 1 + k = ci + (k + 1) by omega]
      exact hcolG
    obtain ⟨g2, hrun2, hw2, hh2, hcu2, hgo2, hclen2, hpre2, hmain2⟩ := ih g1 (ci + 1) hrest
    refine ⟨g2, ?_, hw2.trans hw1, hh2.trans hh1, hcu2.trans hcu1, hgo2.trans hgo1,
      hclen2.trans hclen1, ?_, ?_⟩
    · simp only [List.map_cons, overwriteCells]
      rw [hrun1]
      simp only [except_ok_bind]
      exact hrun2
    · intro cj hcj
      exact (hpre2 cj (by omega)).trans (hoth1 cj (by omega))
    · intro k colS hk
      cases k with
      | zero =>
        have hS : colS = colS0 := by
          simpa using hk.symm
        subst hS
        refine ⟨colG0, col1, hcolG0, ?_, hc1len, ?_⟩
        · rw [Nat.add_zero, hpre2 ci (Nat.lt_succ_self ci)]
          exact hcol1
        · intro r c cG hr hrG
          have hrLt : r < colS.length := (List.get?_eq_some.mp hr).1
          obtain ⟨c2, hc2, hc2set⟩ := hmain1 r hrLt
          rw [Nat.zero_add] at hc2 hc2set
          have hceq : c2 = cG := by
            rw [hc2] at hrG; exact Option.some.inj hrG
          have hcval : colS.get ⟨r, hrLt⟩ = c := by
            have := List.get?_eq_get hrLt
            rw [this] at hr; exact Option.some.inj hr
          subst hceq
          rw [hc2set, hcval]
      | succ j =>
        obtain ⟨colG, col2, hcolG, hcol2, hl, hcells⟩ := hmain2 j colS hk
        refine ⟨colG, col2, ?_, ?_, hl, hcells⟩
        · rw [show ci + (j + 1) = ci + 1 + j by omega, ← hoth1 _ (by omega)]
          exact hcolG
        · rw [show ci + (j + 1) = ci + 1 + j by omega]
          exact hcol2

/-- set_current on a grid whose current marker is unset (the
constructor path): installs the marker and marks the cell CURRENT. -/
theorem set_current_fresh {w h : Nat} (g : GridGraph) (row col : Int)
    (hprev : g.current = none)
    (hdW : g.cells.length = w) (hdH : ∀ colL ∈ g.cells, colL.length = h)
    (h0r : 0 ≤ row) (hrb : row < (h : Int)) (h0c : 0 ≤ col) (hcb : col < (w : Int)) :
    ∃ g2, g.set_current row col = .ok g2 ∧ g2.width = g.width ∧ g2.height = g.height ∧
      g2.current = some (row, col) ∧ g2.goal = g.goal ∧
      g2.cells.length = w ∧ (∀ colL ∈ g2.cells, colL.length = h) := by
  obtain ⟨colL, c, hcol, hc, hmod, hlen, hcols⟩ :=
    modifyCell_dims { g with current := some (row, col) } row col Cell.make_current
      hdW hdH h0r hrb h0c hcb
  refine ⟨{ g with cells := g.cells.set col.toNat (colL.set row.toNat c.make_current), current := some (row, col) }, ?_, rfl, rfl, rfl, rfl, hlen, hcols⟩
  simp only [GridGraph.set_current, hprev, hmod, except_ok_bind]

/-- The constructor succeeds for in-bounds (or absent) markers and
produces a grid with the requested dimensions and markers. -/
theorem gridInit_spec (width height : Nat) (cur goal : Option Pos)
    (hcur : ∀ p, cur = some p →
      0 ≤ p.1 ∧ p.1 < (height : Int) ∧ 0 ≤ p.2 ∧ p.2 < (width : Int))
    (hgoal : ∀ p, goal = some p →
      0 ≤ p.1 ∧ p.1 < (height : Int) ∧ 0 ≤ p.2 ∧ p.2 < (width : Int)) :
    ∃ g0, gridInit width height cur goal none = .ok g0 ∧
      g0.width = width ∧ g0.height = height ∧ g0.current = cur ∧ g0.goal = goal ∧
      g0.cells.length = width ∧ (∀ col ∈ g0.cells, col.length = height) := by
  have hbaseW : (List.replicate width (List.replicate height Cell.init)).length = width :=
    List.length_replicate ..
  have hbaseH : ∀ col ∈ List.replicate width (List.replicate height Cell.init),
      col.length = height := by
    intro col hm
    rw [List.eq_of_mem_replicate hm]
    exact List.length_replicate ..
  rcases cur with _ | p
  · rcases goal with _ | q
    · exact ⟨_, rfl, rfl, rfl, rfl, rfl, hbaseW, hbaseH⟩
    · obtain ⟨hq1, hq2, hq3, hq4⟩ := hgoal q rfl
      obtain ⟨colL, c, hcol, hc, hmod, hlen, hcols⟩ :=
        modifyCell_dims (w := width) (h := height)
          { cells := List.replicate width (List.replicate height Cell.init)
            width := width, height := height, current := none, goal := some q }
          q.1 q.2 Cell.make_goal hbaseW hbaseH hq1 hq2 hq3 hq4
      refine ⟨{ cells := (List.replicate width (List.replicate height Cell.init)).set q.2.toNat (colL.set q.1.toNat c.make_goal), width := width, height := height, current := none, goal := some q },
        ?_, rfl, rfl, rfl, rfl, hlen, hcols⟩
      simp only [gridInit, except_ok_bind, hmod]
  · obtain ⟨hp1, hp2, hp3, hp4⟩ := hcur p rfl
    obtain ⟨g1, hset, hw1, hh1, hcu1, hgo1, hlen1, hcols1⟩ :=
      set_current_fresh (w := width) (h := height)
        { cells := List.replicate width (List.replicate height Cell.init)
          width := width, height := height, current := none, goal := none }
        p.1 p.2 rfl hbaseW hbaseH hp1 hp2 hp3 hp4
    rcases goal with _ | q
    · refine ⟨{ g1 with goal := none }, ?_, hw1, hh1, hcu1, rfl, hlen1, hcols1⟩
      simp only [gridInit, hset, except_ok_bind]
    · obtain ⟨hq1, hq2, hq3, hq4⟩ := hgoal q rfl
      obtain ⟨colL, c, hcol, hc, hmod, hlen, hcols⟩ :=
        modifyCell_dims (w := width) (h := height) { g1 with goal := some q }
          q.1 q.2 Cell.make_goal hlen1 hcols1 hq1 hq2 hq3 hq4
      refine ⟨{ g1 with cells := g1.cells.set q.2.toNat (colL.set q.1.toNat c.make_goal), goal := some q }, ?_, hw1, hh1, hcu1, rfl, hlen, hcols⟩
      simp only [gridInit, hset, except_ok_bind, hmod]

theorem markerOk_elim (g : GridGraph) (op : Option Pos) (h : g.markerOk op) :
    ∀ p, op = some p →
      0 ≤ p.1 ∧ p.1 < (g.height : Int) ∧ 0 ≤ p.2 ∧ p.2 < (g.width : Int) := by
  cases op with
  | none => intro p hp; cases hp
  | some q => intro p hp; cases hp; exact h

/-- C5: from_dict inverts to_dict. For every well-formed GridGraph g,
deserializing the serialized form succeeds and yields a grid with the
same width and height, the same current and goal markers, and the same
cell state at every in-bounds (row, col) coordinate. -/
theorem from_dict_to_dict_roundtrip (g : GridGraph) (hwf : g.WF) :
    ∃ g2, GridGraph.from_dict g.to_dict = .ok g2 ∧
      g2.width = g.width ∧ g2.height = g.height ∧
      g2.current = g.current ∧ g2.goal = g.goal ∧
      ∀ row col : Nat, row < g.height → col < g.width →
        ∃ c c2, g.atCell (row : Int) (col : Int) = .ok c ∧
          g2.atCell (row : Int) (col : Int) = .ok c2 ∧ c2.state = c.state := by
  obtain ⟨⟨hdW, hdH⟩, hcur, hgoal⟩ := hwf
  obtain ⟨g0, hinit, hw0, hh0, hcu0, hgo0, hlen0, hcols0⟩ :=
    gridInit_spec g.width g.height g.current g.goal
      (markerOk_elim g g.current hcur) (markerOk_elim g g.goal hgoal)
  have hsrc : ∀ k colS, g.cells.get? k = some colS →
      ∃ colG, g0.cells.get? (0 + k) = some colG ∧ colS.length = colG.length := by
    intro k colS hk
    have hkLt : k < g.width := by
      have := (List.get?_eq_some.mp hk).1; omega
    obtain ⟨colG, hcolG, hcolGlen⟩ := cells_get_of_dims g0.cells hlen0 hcols0 k hkLt
    refine ⟨colG, by simpa using hcolG, ?_⟩
    rw [hcolGlen, hdH colS (List.get?_mem hk)]
  obtain ⟨g2, hrun, hw2, hh2, hcu2, hgo2, _hlen2, _hpre2, hmain2⟩ :=
    overwriteCells_roundtrip g.cells g0 0 hsrc
  refine ⟨g2, ?_, hw2.trans hw0, hh2.trans hh0, hcu2.trans hcu0, hgo2.trans hgo0, ?_⟩
  · simp only [GridGraph.from_dict, GridGraph.to_dict]
    rw [hinit]
    simp only [except_ok_bind]
    exact hrun
  · intro row col hrow hcol
    have hcolLt : col < g.cells.length := by omega
    have hS : g.cells.get? col = some (g.cells.get ⟨col, hcolLt⟩) := List.get?_eq_get hcolLt
    obtain ⟨colG, col2, hcolG, hcol2, hl2, hcells2⟩ := hmain2 col _ hS
    rw [Nat.zero_add] at hcolG hcol2
    have hSlen : row < (g.cells.get ⟨col, hcolLt⟩).length := by
      rw [hdH _ (List.get_mem _ _ _)]; omega
    have hGlen : row < colG.length := by
      rw [hcols0 colG (List.get?_mem hcolG)]; omega
    have hc : (g.cells.get ⟨col, hcolLt⟩).get? row =
        some ((g.cells.get ⟨col, hcolLt⟩).get ⟨row, hSlen⟩) := List.get?_eq_get hSlen
    have hcG : colG.get? row = some (colG.get ⟨row, hGlen⟩) := List.get?_eq_get hGlen
    refine ⟨(g.cells.get ⟨col, hcolLt⟩).get ⟨row, hSlen⟩,
      { colG.get ⟨row, hGlen⟩ with
        state := ((g.cells.get ⟨col, hcolLt⟩).get ⟨row, hSlen⟩).state },
      atCell_of_get? g row col _ _ hS hc, ?_, rfl⟩
    exact atCell_of_get? g2 row col col2 _ hcol2 (hcells2 row _ _ hc hcG)

/-- A concrete well-formed 2 by 2 grid with markers, exercising the
serialization round trip. -/
def gridRT : GridGraph :=
  { cells := [[⟨.CURRENT, some .ACTIVE⟩, ⟨.ACTIVE, none⟩],
              [⟨.SLOW, none⟩, ⟨.GOAL, some .ACTIVE⟩]]
    width := 2, height := 2, current := some (0, 0), goal := some (1, 1) }

/-- C5 witness: the round trip theorem applied to a concrete grid. -/
theorem from_dict_to_dict_roundtrip_witness :
    gridRT.WF ∧
    ∃ g2, GridGraph.from_dict gridRT.to_dict = .ok g2 ∧
      g2.width = gridRT.width ∧ g2.height = gridRT.height ∧
      g2.current = gridRT.current ∧ g2.goal = gridRT.goal ∧
      ∀ row col : Nat, row < gridRT.height → col < gridRT.width →
        ∃ c c2, gridRT.atCell (row : Int) (col : Int) = .ok c ∧
          g2.atCell (row : Int) (col : Int) = .ok c2 ∧ c2.state = c.state :=
  ⟨by decide, from_dict_to_dict_roundtrip gridRT (by decide)⟩

/-- C9 counterexample: flip_active on a SLOW cell (neither Active nor
Inactive) raises no error and does not leave the state unchanged: it
returns normally with the state set to INACTIVE. -/
theorem flip_active_slow_no_error :
    Cell.flip_active ⟨.SLOW, none⟩ = ⟨.INACTIVE, some .SLOW⟩ := rfl

/-- C9 (amended): flip_active never raises. On an INACTIVE cell it
yields ACTIVE; on any other state (ACTIVE, SLOW, CURRENT, VISITED,
GOAL alike) it yields INACTIVE, recording the old state in
prev_state; restricted to the Active/Inactive states it toggles
strictly between the two. -/
theorem flip_active_spec (c : Cell) :
    (c.state = .INACTIVE → c.flip_active = ⟨.ACTIVE, some .INACTIVE⟩)
    ∧ (c.state ≠ .INACTIVE → c.flip_active = ⟨.INACTIVE, some c.state⟩)
    ∧ ((c.state = .ACTIVE ∨ c.state = .INACTIVE) →
        (c.flip_active.flip_active).state = c.state) := by
  refine ⟨?_, ?_, ?_⟩
  · intro h; simp [Cell.flip_active, Cell.change_state, h]
  · intro h; simp [Cell.flip_active, Cell.change_state, h]
  · rintro (h | h) <;> simp [Cell.flip_active, Cell.change_state, h]

/-- C9 witness: the amended flip_active behaviour evaluated on an
ACTIVE cell. -/
theorem flip_active_spec_witness :
    Cell.flip_active ⟨.ACTIVE, none⟩ = ⟨.INACTIVE, some .ACTIVE⟩ ∧
    ((Cell.flip_active ⟨.ACTIVE, none⟩).flip_active).state = .ACTIVE :=
  ⟨(flip_active_spec ⟨.ACTIVE, none⟩).2.1 (by decide),
   (flip_active_spec ⟨.ACTIVE, none⟩).2.2 (Or.inl rfl)⟩

/-! ## Directed graphs (src/lib/directed_graph.py, base in base_graph.py) -/

/-- Graph (base_graph.py) specialized to the directed variant. `nodes`
is a Python set modeled as a list in iteration order; the adjacency
dict is modeled as a total function that is [] outside the node set
(a well-formedness condition records that shape). -/
structure DirectedGraph where
  nodes : List Nat
  adjacency_list : Nat → List Nat

/-- DirectedGraph.from_edge_list: adjacency starts empty for the nodes
0..n-1 and each edge appends its destination to its source's list; a
source outside 0..n-1 raises KeyError. -/
def DirectedGraph.from_edge_list (n : Nat) (edges : List (Nat × Nat)) :
    Except PyErr DirectedGraph :=
  if edges.all (fun e => e.1 < n) then
    .ok { nodes := List.range n
          adjacency_list := fun v =>
            if v < n then (edges.filter (fun e => e.1 == v)).map (fun e => e.2) else [] }
  else .error .keyError

/-- One forward edge of the graph. -/
def edgeStep (g : DirectedGraph) (u v : Nat) : Prop :=
  v ∈ g.adjacency_list u

instance (g : DirectedGraph) (u v : Nat) : Decidable (edgeStep g u v) := by
  unfold edgeStep; infer_instance

/-- A directed cycle: a nonempty forward walk from some node back to
itself. -/
def HasCycle (g : DirectedGraph) : Prop :=
  ∃ n, Relation.TransGen (edgeStep g) n n

/-- Well-formedness of a directed graph value: the node list
represents a set (no duplicates), adjacency lists live inside the node
set and are duplicate-free (the spec's edge sets), and the adjacency
function is [] off the node set, mirroring the dict whose keys are
exactly the nodes. -/
def DirectedGraph.WF (g : DirectedGraph) : Prop :=
  g.nodes.Nodup ∧
  (∀ n ∈ g.nodes, (g.adjacency_list n).Nodup) ∧
  (∀ n ∈ g.nodes, ∀ v ∈ g.adjacency_list n, v ∈ g.nodes) ∧
  (∀ n, n ∉ g.nodes → g.adjacency_list n = [])

/-- The inner while loop of has_cycles, walking forward from `node`:
pop from the end of to_visit, return true upon reaching `node`,
otherwise record the node and push its successors. The loop has no
general termination guarantee, so it carries fuel; its very first
iteration pops the start node itself and returns true, so any positive
fuel is enough. -/
def hasCyclesInner (adjacency_list : Nat → List Nat) (node : Nat) :
    Nat → List Nat → Finset Nat → Bool
  | 0, _, _ => false
  | fuel + 1, to_visit, current_path =>
    match to_visit.getLast? with
    | none => false
    | some current =>
      if current = node then true
      else
        hasCyclesInner adjacency_list node fuel
          (to_visit.dropLast ++ adjacency_list current)
          (insert current current_path)

/-- DirectedGraph.has_cycles: for each node run the inner walk seeded
with that node itself (the remaining_nodes bookkeeping in the source
has no observable effect: its only read is commented out). -/
def DirectedGraph.has_cycles (g : DirectedGraph) : Bool :=
  g.nodes.any (fun node =>
    hasCyclesInner g.adjacency_list node (g.nodes.length + 1) [node] ∅)

/-- The first inner iteration pops the seed node and immediately
reports a cycle. -/
theorem hasCyclesInner_seed (adj : Nat → List Nat) (node : Nat) (fuel : Nat) :
    hasCyclesInner adj node (fuel + 1) [node] ∅ = true := by
  simp [hasCyclesInner]

/-- has_cycles is true exactly on graphs with at least one node,
whatever the edges. -/
theorem has_cycles_eq_nonempty (g : DirectedGraph) :
    g.has_cycles = !g.nodes.isEmpty := by
  cases hn : g.nodes with
  | nil => simp [DirectedGraph.has_cycles, hn]
  | cons n rest =>
    simp only [DirectedGraph.has_cycles, hn, List.any_cons, List.isEmpty_cons, Bool.not_false]
    rw [hasCyclesInner_seed g.adjacency_list n ((n :: rest).length)]
    rfl

/-- C2: code bug. The walk pops the seed node as its very first step
and the self-revisit check fires immediately, so has_cycles returns
true on every graph with at least one node. On the acyclic 2-node
graph with single edge (0, 1) it reports a cycle, contradicting the
claim (and the function's own docstring) that acyclic edge sets yield
false. -/
theorem has_cycles_false_positive :
    ∃ g, DirectedGraph.from_edge_list 2 [(0, 1)] = .ok g ∧
      g.nodes = [0, 1] ∧ g.has_cycles = true := by
  refine ⟨_, rfl, rfl, ?_⟩
  rw [has_cycles_eq_nonempty]
  rfl

theorem except_error_bind {α β : Type} (e : PyErr) (f : α → Except PyErr β) :
    (Except.error e >>= f : Except PyErr β) = .error e := rfl

/-- The inflow dict of topological_order: a Python dict from node to
set of in-neighbours, modeled as an insertion-ordered association
list. -/
abbrev InflowList : Type := List (Nat × Finset Nat)

/-- Dict read: value at the first entry with the given key. -/
def alookup (l : InflowList) (k : Nat) : Option (Finset Nat) :=
  (l.find? (fun kv => kv.1 == k)).map Prod.snd

/-- Dict write through a possibly fallible value transformer
(`inflow_list[k].add(...)` / `.remove(...)`): KeyError when the key is
absent. -/
def assocUpdateE (k : Nat) (f : Finset Nat → Except PyErr (Finset Nat)) :
    InflowList → Except PyErr InflowList
  | [] => .error .keyError
  | (k2, s) :: rest =>
    if k2 = k then do
      let s2 ← f s
      .ok ((k2, s2) :: rest)
    else do
      let rest2 ← assocUpdateE k f rest
      .ok ((k2, s) :: rest2)

/-- Python set.remove: KeyError when the element is absent. -/
def setRemove (s : Finset Nat) (x : Nat) : Except PyErr (Finset Nat) :=
  if x ∈ s then .ok (s.erase x) else .error .keyError

theorem alookup_cons (k1 : Nat) (s : Finset Nat) (rest : InflowList) (k : Nat) :
    alookup ((k1, s) :: rest) k = if k1 = k then some s else alookup rest k := by
  by_cases h : k1 = k
  · simp [alookup, List.find?_cons, h]
  · simp [alookup, List.find?_cons, h]

theorem assocUpdateE_ok (k : Nat) (f : Finset Nat → Except PyErr (Finset Nat)) :
    ∀ (l : InflowList) (s : Finset Nat), alookup l k = some s →
    ∀ s2, f s = .ok s2 →
    ∃ l2, assocUpdateE k f l = .ok l2 ∧ l2.map Prod.fst = l.map Prod.fst ∧
      alookup l2 k = some s2 ∧ (∀ k2, k2 ≠ k → alookup l2 k2 = alookup l k2) := by
  intro l
  induction l with
  | nil => intro s h; cases h
  | cons kv rest ih =>
    obtain ⟨k1, s1⟩ := kv
    intro s h s2 hf
    rw [alookup_cons] at h
    by_cases h1 : k1 = k
    · rw [if_pos h1] at h
      obtain rfl : s1 = s := Option.some.inj h
      refine ⟨(k1, s2) :: rest, ?_, by simp, ?_, ?_⟩
      · simp [assocUpdateE, h1, hf, except_ok_bind]
      · rw [alookup_cons, if_pos h1]
      · intro k2 hk2
        rw [alookup_cons, alookup_cons, if_neg (by omega), if_neg (by omega)]
    · rw [if_neg h1] at h
      obtain ⟨l2, hrun, hkeys, hlk, hoth⟩ := ih s h s2 hf
      refine ⟨(k1, s1) :: l2, ?_, by simp [hkeys], ?_, ?_⟩
      · simp [assocUpdateE, h1, hrun, except_ok_bind]
      · rw [alookup_cons, if_neg h1]; exact hlk
      · intro k2 hk2
        rw [alookup_cons, alookup_cons]
        by_cases h12 : k1 = k2
        · simp [h12]
        · simp [h12, hoth k2 hk2]

theorem alookup_of_mem_keys : ∀ {l : InflowList} {k : Nat},
    k ∈ l.map Prod.fst → ∃ s, alookup l k = some s := by
  intro l
  induction l with
  | nil => intro k h; cases h
  | cons kv rest ih =>
    obtain ⟨k1, s1⟩ := kv
    intro k h
    by_cases h1 : k1 = k
    · exact ⟨s1, by rw [alookup_cons, if_pos h1]⟩
    · obtain ⟨s, hs⟩ := ih (by
        rcases List.mem_cons.mp h with h2 | h2
        · exact absurd h2.symm h1
        · exact h2)
      exact ⟨s, by rw [alookup_cons, if_neg h1]; exact hs⟩

theorem alookup_of_mem_nodup : ∀ {l : InflowList},
    (l.map Prod.fst).Nodup → ∀ {k s}, (k, s) ∈ l → alookup l k = some s := by
  intro l
  induction l with
  | nil => intro _ k s hm; cases hm
  | cons kv rest ih =>
    obtain ⟨k1, s1⟩ := kv
    intro hnd k s hm
    simp only [List.map_cons, List.nodup_cons] at hnd
    rcases List.mem_cons.mp hm with he | hm2
    · rw [Prod.mk.injEq] at he
      obtain ⟨rfl, rfl⟩ := he
      rw [alookup_cons, if_pos rfl]
    · have hk : k1 ≠ k := by
        intro he2; subst he2
        exact hnd.1 (List.mem_map_of_mem Prod.fst hm2)
      rw [alookup_cons, if_neg hk]
      exact ih hnd.2 hm2

/-- The in-neighbourhood of k among a pool P of sources. -/
def inflowSet (g : DirectedGraph) (k : Nat) (P : List Nat) : Finset Nat :=
  (P.filter (fun u => decide (k ∈ g.adjacency_list u))).toFinset

theorem mem_inflowSet (g : DirectedGraph) (k : Nat) (P : List Nat) (u : Nat) :
    u ∈ inflowSet g k P ↔ u ∈ P ∧ k ∈ g.adjacency_list u := by
  simp [inflowSet, List.mem_filter]

/-- First phase of topological_order: inflow_list starts with an
empty set per node (in node iteration order) and each edge
(node, neighbor) inserts node into neighbor's set; a neighbor outside
the dict keys raises KeyError. -/
def buildInflow (g : DirectedGraph) : Except PyErr InflowList :=
  g.nodes.foldlM
    (fun acc node =>
      (g.adjacency_list node).foldlM
        (fun acc2 neighbor => assocUpdateE neighbor (fun s => .ok (insert node s)) acc2)
        acc)
    (g.nodes.map (fun n => (n, (∅ : Finset Nat))))

theorem alookup_init (l : List Nat) (k : Nat) (h : k ∈ l) :
    alookup (l.map (fun n => (n, (∅ : Finset Nat)))) k = some ∅ := by
  induction l with
  | nil => cases h
  | cons n rest ih =>
    rw [List.map_cons, alookup_cons]
    by_cases hn : n = k
    · rw [if_pos hn]
    · rw [if_neg hn]
      refine ih ?_
      rcases List.mem_cons.mp h with h2 | h2
      · exact absurd h2.symm hn
      · exact h2

theorem insertFold_spec (g : DirectedGraph) (u : Nat) :
    ∀ (ns : List Nat) (acc : InflowList),
    (∀ v ∈ ns, v ∈ acc.map Prod.fst) →
    ∃ acc2,
      ns.foldlM (fun a2 nb => assocUpdateE nb (fun s => .ok (insert u s)) a2) acc
        = .ok acc2 ∧
      acc2.map Prod.fst = acc.map Prod.fst ∧
      (∀ k, alookup acc2 k =
        if k ∈ ns then (alookup acc k).map (insert u) else alookup acc k) := by
  intro ns
  induction ns with
  | nil =>
    intro acc _
    exact ⟨acc, rfl, rfl, fun k => by simp⟩
  | cons v rest ih =>
    intro acc hks
    obtain ⟨s, hs⟩ := alookup_of_mem_keys (hks v (List.mem_cons_self ..))
    obtain ⟨acc1, hrun1, hkeys1, hlk1, hoth1⟩ :=
      assocUpdateE_ok v (fun s => .ok (insert u s)) acc s hs (insert u s) rfl
    obtain ⟨acc2, hrun2, hkeys2, hlks⟩ := ih acc1 (fun w hw => by
      rw [hkeys1]; exact hks w (List.mem_cons_of_mem _ hw))
    refine ⟨acc2, ?_, hkeys2.trans hkeys1, ?_⟩
    · rw [List.foldlM_cons, hrun1, except_ok_bind]
      exact hrun2
    · intro k
      rw [hlks k]
      by_cases hkv : k = v
      · subst hkv
        by_cases hkr : k ∈ rest
        · simp [hkr, hlk1, hs, List.mem_cons, Finset.insert_idem]
        · simp [hkr, hlk1, hs, List.mem_cons]
      · by_cases hkr : k ∈ rest
        · simp [hkr, hkv, hoth1 k hkv, List.mem_cons]
        · simp [hkr, hkv, hoth1 k hkv, List.mem_cons]

theorem inflowSet_nil (g : DirectedGraph) (k : Nat) : inflowSet g k [] = ∅ := rfl

theorem inflowSet_snoc (g : DirectedGraph) (k : Nat) (P : List Nat) (u : Nat) :
    inflowSet g k (P ++ [u]) =
      if k ∈ g.adjacency_list u then insert u (inflowSet g k P)
      else inflowSet g k P := by
  by_cases h : k ∈ g.adjacency_list u
  · rw [if_pos h]
    ext w
    simp only [mem_inflowSet, List.mem_append, List.mem_singleton, Finset.mem_insert]
    constructor
    · rintro ⟨hw | hw, hadj⟩
      · exact Or.inr ⟨hw, hadj⟩
      · exact Or.inl hw
    · rintro (hw | ⟨hw, hadj⟩)
      · exact ⟨Or.inr hw, hw ▸ h⟩
      · exact ⟨Or.inl hw, hadj⟩
  · rw [if_neg h]
    ext w
    simp only [mem_inflowSet, List.mem_append, List.mem_singleton]
    constructor
    · rintro ⟨hw | hw, hadj⟩
      · exact ⟨hw, hadj⟩
      · exact absurd (hw ▸ hadj) h
    · rintro ⟨hw, hadj⟩
      exact ⟨Or.inl hw, hadj⟩

theorem buildFold_spec (g : DirectedGraph) (hwf : g.WF) :
    ∀ (R P : List Nat) (acc : InflowList),
    (∀ w ∈ R, w ∈ g.nodes) →
    acc.map Prod.fst = g.nodes →
    (∀ k, k ∈ g.nodes → alookup acc k = some (inflowSet g k P)) →
    ∃ acc2,
      R.foldlM (fun acc node =>
        (g.adjacency_list node).foldlM
          (fun acc2 neighbor => assocUpdateE neighbor (fun s => .ok (insert node s)) acc2)
          acc) acc = .ok acc2 ∧
      acc2.map Prod.fst = g.nodes ∧
      (∀ k, k ∈ g.nodes → alookup acc2 k = some (inflowSet g k (P ++ R))) := by
  intro R
  induction R with
  | nil =>
    intro P acc _ hkeys hvals
    exact ⟨acc, rfl, hkeys, fun k hk => by simpa using hvals k hk⟩
  | cons u R2 ih =>
    intro P acc hmem hkeys hvals
    have hu : u ∈ g.nodes := hmem u (List.mem_cons_self ..)
    obtain ⟨acc1, hrun1, hkeys1, hlks1⟩ := insertFold_spec g u (g.adjacency_list u) acc
      (fun v hv => by rw [hkeys]; exact hwf.2.2.1 u hu v hv)
    have hvals1 : ∀ k, k ∈ g.nodes → alookup acc1 k = some (inflowSet g k (P ++ [u])) := by
      intro k hk
      rw [hlks1 k, inflowSet_snoc]
      by_cases hadj : k ∈ g.adjacency_list u
      · rw [if_pos hadj, if_pos hadj, hvals k hk]; rfl
      · rw [if_neg hadj, if_neg hadj, hvals k hk]
    obtain ⟨acc2, hrun2, hkeys2, hvals2⟩ := ih (P ++ [u]) acc1
      (fun w hw => hmem w (List.mem_cons_of_mem _ hw))
      (hkeys1.trans hkeys) hvals1
    refine ⟨acc2, ?_, hkeys2, ?_⟩
    · rw [List.foldlM_cons, hrun1, except_ok_bind]
      exact hrun2
    · intro k hk
      rw [hvals2 k hk, List.append_assoc]
      rfl

theorem buildInflow_spec (g : DirectedGraph) (hwf : g.WF) :
    ∃ inflow, buildInflow g = .ok inflow ∧
      inflow.map Prod.fst = g.nodes ∧
      (∀ k, k ∈ g.nodes → alookup inflow k = some (inflowSet g k g.nodes)) := by
  obtain ⟨acc2, hrun, hkeys, hvals⟩ := buildFold_spec g hwf g.nodes []
    (g.nodes.map (fun n => (n, (∅ : Finset Nat))))
    (fun u hu => hu)
    (by
      rw [List.map_map,
        show (Prod.fst ∘ fun n => ((n : Nat), (∅ : Finset Nat))) = id from rfl,
        List.map_id])
    (fun k hk => by rw [alookup_init g.nodes k hk, inflowSet_nil])
  exact ⟨acc2, hrun, hkeys, fun k hk => by
    have := hvals k hk
    rwa [List.nil_append] at this⟩

/-- Main loop of topological_order: while the inflow dict is nonempty,
take the first key with an empty inflow set (dict iteration order), or
fail with the cycle error if none exists; delete it, discharge its
outgoing edges from its successors' sets (set.remove raises KeyError
when absent), and append it to the ordering. The loop removes one key
per iteration, so fuel beyond the dict size is never consumed. -/
def topoLoop (g : DirectedGraph) : Nat → InflowList → List Nat → Except PyErr (List Nat)
  | 0, _, _ => .error (.exception "fuel")
  | fuel + 1, inflow, ordering =>
    match inflow with
    | [] => .ok ordering
    | _ :: _ =>
      match inflow.find? (fun kv => decide (kv.2 = ∅)) with
      | none => .error (.exception "Graph has cycles")
      | some kv => do
        let inflow2 := inflow.filter (fun kv2 => decide (kv2.1 ≠ kv.1))
        let inflow3 ← (g.adjacency_list kv.1).foldlM
          (fun a nb => assocUpdateE nb (fun s => setRemove s kv.1) a) inflow2
        topoLoop g fuel inflow3 (ordering ++ [kv.1])

/-- DirectedGraph.topological_order: build the inflow sets, then peel
off zero-inflow nodes until done or a cycle is detected. -/
def DirectedGraph.topological_order (g : DirectedGraph) : Except PyErr (List Nat) := do
  let inflow ← buildInflow g
  topoLoop g (inflow.length + 1) inflow []

theorem removeFold_spec (x : Nat) :
    ∀ (ns : List Nat) (acc : InflowList),
    ns.Nodup →
    (∀ v ∈ ns, ∃ s, alookup acc v = some s ∧ x ∈ s) →
    ∃ acc2,
      ns.foldlM (fun a nb => assocUpdateE nb (fun s => setRemove s x) a) acc = .ok acc2 ∧
      acc2.map Prod.fst = acc.map Prod.fst ∧
      (∀ k, alookup acc2 k =
        if k ∈ ns then (alookup acc k).map (fun s => s.erase x) else alookup acc k) := by
  intro ns
  induction ns with
  | nil =>
    intro acc _ _
    exact ⟨acc, rfl, rfl, fun k => by simp⟩
  | cons v rest ih =>
    intro acc hnd hvals
    obtain ⟨s, hs, hxs⟩ := hvals v (List.mem_cons_self ..)
    have hrm : setRemove s x = .ok (s.erase x) := by rw [setRemove, if_pos hxs]
    obtain ⟨acc1, hrun1, hkeys1, hlk1, hoth1⟩ :=
      assocUpdateE_ok v (fun s => setRemove s x) acc s hs (s.erase x) hrm
    simp only [List.nodup_cons] at hnd
    obtain ⟨acc2, hrun2, hkeys2, hlks⟩ := ih acc1 hnd.2 (fun w hw => by
      obtain ⟨sw, hsw, hxw⟩ := hvals w (List.mem_cons_of_mem _ hw)
      have hwv : w ≠ v := fun he => hnd.1 (he ▸ hw)
      exact ⟨sw, (hoth1 w hwv).trans hsw, hxw⟩)
    refine ⟨acc2, ?_, hkeys2.trans hkeys1, ?_⟩
    · rw [List.foldlM_cons, hrun1, except_ok_bind]
      exact hrun2
    · intro k
      rw [hlks k]
      by_cases hkv : k = v
      · subst hkv
        have hkr : k ∉ rest := hnd.1
        simp [hkr, hlk1, hs, List.mem_cons]
      · by_cases hkr : k ∈ rest
        · simp [hkr, hkv, hoth1 k hkv, List.mem_cons]
        · simp [hkr, hkv, hoth1 k hkv, List.mem_cons]

theorem alookup_filter_ne (x : Nat) :
    ∀ (l : InflowList) (k : Nat), k ≠ x →
    alookup (l.filter (fun kv => decide (kv.1 ≠ x))) k = alookup l k := by
  intro l
  induction l with
  | nil => intro k _; rfl
  | cons kv rest ih =>
    intro k hk
    obtain ⟨k1, s1⟩ := kv
    by_cases h1 : k1 = x
    · subst h1
      rw [List.filter_cons_of_neg (by simp), alookup_cons,
        if_neg (fun he => hk he.symm)]
      exact ih k hk
    · rw [List.filter_cons_of_pos (by simpa using h1), alookup_cons, alookup_cons]
      by_cases h2 : k1 = k
      · rw [if_pos h2, if_pos h2]
      · rw [if_neg h2, if_neg h2]
        exact ih k hk

theorem keys_filter_ne (x : Nat) (l : InflowList) :
    (l.filter (fun kv => decide (kv.1 ≠ x))).map Prod.fst =
      (l.map Prod.fst).filter (fun k => decide (k ≠ x)) := by
  rw [List.map_filter]
  rfl

/-- If every member of a nonempty finite set has a predecessor inside
the set, the relation has a cycle (follow predecessors and apply the
pigeonhole principle). -/
theorem cycle_of_all_preds (R : Nat → Nat → Prop) (S : Finset Nat) (hne : S.Nonempty)
    (hpred : ∀ v ∈ S, ∃ u ∈ S, R u v) : ∃ n, Relation.TransGen R n n := by
  classical
  have hpred2 : ∀ v : S, ∃ u : S, R u.1 v.1 := by
    rintro ⟨v, hv⟩
    obtain ⟨u, hu, hru⟩ := hpred v hv
    exact ⟨⟨u, hu⟩, hru⟩
  choose f hf using hpred2
  obtain ⟨v0, hv0⟩ := hne
  let seq : Nat → S := fun n => f^[n] ⟨v0, hv0⟩
  have hstep : ∀ n, R (seq (n + 1)).1 (seq n).1 := by
    intro n
    have : seq (n + 1) = f (seq n) := Function.iterate_succ_apply' f n _
    rw [this]
    exact hf (seq n)
  have hchain : ∀ d i, Relation.TransGen R (seq (i + d + 1)).1 (seq i).1 := by
    intro d
    induction d with
    | zero => intro i; exact Relation.TransGen.single (hstep i)
    | succ d2 ih =>
      intro i
      have h1 : R (seq (i + (d2 + 1) + 1)).1 (seq (i + d2 + 1)).1 := by
        have := hstep (i + d2 + 1)
        rwa [show i + d2 + 1 + 1 = i + (d2 + 1) + 1 by omega] at this
      exact Relation.TransGen.head h1 (ih i)
  have hcard : Fintype.card S < Fintype.card (Fin (Fintype.card S + 1)) := by
    simp
  obtain ⟨a, b, hab, hseq⟩ :=
    Fintype.exists_ne_map_eq_of_card_lt (fun i : Fin (Fintype.card S + 1) => seq i.1) hcard
  rcases Nat.lt_or_ge a.1 b.1 with h | h
  · refine ⟨(seq b.1).1, ?_⟩
    have := hchain (b.1 - a.1 - 1) a.1
    rw [show a.1 + (b.1 - a.1 - 1) + 1 = b.1 by omega] at this
    rw [show (seq b.1).1 = (seq a.1).1 by rw [hseq]] at this ⊢
    exact this
  · have h2 : b.1 < a.1 := by
      rcases Nat.lt_or_ge b.1 a.1 with h2 | h2
      · exact h2
      · exact absurd (Fin.ext (by omega)) hab
    refine ⟨(seq a.1).1, ?_⟩
    have := hchain (a.1 - b.1 - 1) b.1
    rw [show b.1 + (a.1 - b.1 - 1) + 1 = a.1 by omega] at this
    rw [show (seq a.1).1 = (seq b.1).1 by rw [hseq]] at this ⊢
    exact this

/-- A duplicate-free ordering of all nodes with no backward edges and
no self-loops certifies acyclicity. -/
theorem acyclic_of_order (g : DirectedGraph) (hwf : g.WF) (ord : List Nat)
    (hperm : ord.Perm g.nodes)
    (hpw : ord.Pairwise (fun a b => ¬ edgeStep g b a))
    (hself : ∀ u, ¬ edgeStep g u u) : ¬ HasCycle g := by
  rintro ⟨n, hcyc⟩
  have hnd : ord.Nodup := hperm.nodup_iff.mpr hwf.1
  have hidx : ∀ u v, edgeStep g u v → ord.indexOf u < ord.indexOf v := by
    intro u v he
    have hu : u ∈ g.nodes := by
      by_contra hu
      rw [edgeStep, hwf.2.2.2 u hu] at he
      cases he
    have hv : v ∈ g.nodes := hwf.2.2.1 u hu v he
    have huo : u ∈ ord := hperm.mem_iff.mpr hu
    have hvo : v ∈ ord := hperm.mem_iff.mpr hv
    have hiu : ord.indexOf u < ord.length := List.indexOf_lt_length.mpr huo
    have hiv : ord.indexOf v < ord.length := List.indexOf_lt_length.mpr hvo
    rcases Nat.lt_trichotomy (ord.indexOf u) (ord.indexOf v) with h | h | h
    · exact h
    · exfalso
      have : u = v := by
        have h1 := List.indexOf_get hiu
        have h2 := List.indexOf_get hiv
        rw [← h1, ← h2]
        exact congrArg ord.get (Fin.ext h)
      exact hself u (this ▸ he)
    · exfalso
      have hpg := List.pairwise_iff_get.mp hpw ⟨ord.indexOf v, hiv⟩ ⟨ord.indexOf u, hiu⟩ h
      rw [List.indexOf_get hiu, List.indexOf_get hiv] at hpg
      exact hpg he
  have hmono : ∀ a b, Relation.TransGen (edgeStep g) a b →
      ord.indexOf a < ord.indexOf b := by
    intro a b h
    induction h with
    | single h1 => exact hidx _ _ h1
    | tail _ h2 ih => exact ih.trans (hidx _ _ h2)
  exact absurd (hmono n n hcyc) (lt_irrefl _)

theorem mem_of_alookup_eq_some : ∀ {l : InflowList} {k s},
    alookup l k = some s → (k, s) ∈ l := by
  intro l
  induction l with
  | nil => intro k s h; cases h
  | cons kv rest ih =>
    obtain ⟨k1, s1⟩ := kv
    intro k s h
    rw [alookup_cons] at h
    by_cases h1 : k1 = k
    · rw [if_pos h1] at h
      obtain rfl := Option.some.inj h
      subst h1
      exact List.mem_cons_self ..
    · rw [if_neg h1] at h
      exact List.mem_cons_of_mem _ (ih h)

theorem inflowSet_erase (g : DirectedGraph) (k x : Nat) (keys : List Nat)
    (hnd : keys.Nodup) :
    inflowSet g k (keys.erase x) = (inflowSet g k keys).erase x := by
  ext u
  rw [mem_inflowSet, Finset.mem_erase, mem_inflowSet, hnd.mem_erase_iff]
  tauto

theorem topoLoop_spec (g : DirectedGraph) (hwf : g.WF) :
    ∀ (fuel : Nat) (inflow : InflowList) (ordering : List Nat),
    inflow.length < fuel →
    (ordering ++ inflow.map Prod.fst).Perm g.nodes →
    (∀ k, k ∈ inflow.map Prod.fst →
      alookup inflow k = some (inflowSet g k (inflow.map Prod.fst))) →
    (∀ u ∈ inflow.map Prod.fst, ∀ v ∈ ordering, ¬ edgeStep g u v) →
    ordering.Pairwise (fun a b => ¬ edgeStep g b a) →
    (∀ v ∈ ordering, ¬ edgeStep g v v) →
    ((∃ ord, topoLoop g fuel inflow ordering = .ok ord ∧ ord.Perm g.nodes ∧
        ord.Pairwise (fun a b => ¬ edgeStep g b a) ∧ (∀ v ∈ ord, ¬ edgeStep g v v))
      ∨ (topoLoop g fuel inflow ordering = .error (.exception "Graph has cycles") ∧
          HasCycle g)) := by
  intro fuel
  induction fuel with
  | zero => intro inflow ordering hlen _ _ _ _ _; omega
  | succ fuel ih =>
    intro inflow ordering hlen hperm hvals hcross hpw hself
    cases hinf : inflow with
    | nil =>
      subst hinf
      exact Or.inl ⟨ordering, rfl, by simpa using hperm, hpw, hself⟩
    | cons e0 irest =>
      subst hinf
      have hndfull : (ordering ++ (e0 :: irest).map Prod.fst).Nodup :=
        hperm.nodup_iff.mpr hwf.1
      have hndkeys : ((e0 :: irest).map Prod.fst).Nodup :=
        hndfull.of_append_right
      cases hfind : (e0 :: irest).find? (fun kv => decide (kv.2 = ∅)) with
      | none =>
        refine Or.inr ⟨by rw [topoLoop, hfind], ?_⟩
        have hno : ∀ kv ∈ (e0 :: irest), kv.2 ≠ (∅ : Finset Nat) := by
          intro kv hm he
          have := List.find?_eq_none.mp hfind kv hm
          simp [he] at this
        refine cycle_of_all_preds (edgeStep g)
          ((e0 :: irest).map Prod.fst).toFinset
          ⟨e0.1, by simp⟩ ?_
        intro v hv
        rw [List.mem_toFinset] at hv
        have hlk := hvals v hv
        have hmem := mem_of_alookup_eq_some hlk
        have hneq := hno _ hmem
        obtain ⟨u, hu⟩ := Finset.nonempty_iff_ne_empty.mpr hneq
        rw [mem_inflowSet] at hu
        exact ⟨u, List.mem_toFinset.mpr hu.1, hu.2⟩
      | some kv0 =>
        obtain ⟨x, s0⟩ := kv0
        have hmem0 : (x, s0) ∈ (e0 :: irest) := List.mem_of_find?_eq_some hfind
        have hs0 : s0 = ∅ := by
          have := List.find?_some hfind
          simpa using this
        subst hs0
        have hx : x ∈ (e0 :: irest).map Prod.fst :=
          List.mem_map_of_mem Prod.fst hmem0
        have hxnodes : x ∈ g.nodes := by
          have := hperm.mem_iff.mp (List.mem_append.mpr (Or.inr hx))
          exact this
        have hxval : (∅ : Finset Nat) = inflowSet g x ((e0 :: irest).map Prod.fst) := by
          have h1 := hvals x hx
          have h2 := alookup_of_mem_nodup hndkeys hmem0
          rw [h1] at h2
          exact (Option.some.inj h2).symm
        have hnoself : x ∉ g.adjacency_list x := by
          intro hxx
          have : x ∈ inflowSet g x ((e0 :: irest).map Prod.fst) := by
            rw [mem_inflowSet]; exact ⟨hx, hxx⟩
          rw [← hxval] at this
          cases this
        -- the filtered dict
        have hkeys2 : ((e0 :: irest).filter (fun kv2 => decide (kv2.1 ≠ x))).map Prod.fst
            = ((e0 :: irest).map Prod.fst).erase x := by
          rw [keys_filter_ne, List.Nodup.erase_eq_filter hndkeys]
          apply List.filter_congr
          intro a _
          by_cases hax : a = x
          · simp [hax, bne]
          · simp [hax, bne]
        -- facts about the successors of x
        have hnbr : ∀ v ∈ g.adjacency_list x,
            v ∈ ((e0 :: irest).map Prod.fst) ∧ v ∉ ordering ∧ v ≠ x := by
          intro v hv
          have hvnodes : v ∈ g.nodes := hwf.2.2.1 x hxnodes v hv
          have hvord : v ∉ ordering := fun hvo => hcross x hx v hvo hv
          have hvne : v ≠ x := by
            rintro rfl
            exact hnoself hv
          have := List.mem_append.mp (hperm.mem_iff.mpr hvnodes)
          rcases this with h | h
          · exact absurd h hvord
          · exact ⟨h, hvord, hvne⟩
        obtain ⟨inflow3, hrun3, hkeys3, hlks3⟩ :=
          removeFold_spec x (g.adjacency_list x)
            ((e0 :: irest).filter (fun kv2 => decide (kv2.1 ≠ x)))
            (hwf.2.1 x hxnodes)
            (by
              intro v hv
              obtain ⟨hvk, _hvo, hvne⟩ := hnbr v hv
              refine ⟨inflowSet g v ((e0 :: irest).map Prod.fst), ?_, ?_⟩
              · rw [alookup_filter_ne x _ v hvne]
                exact hvals v hvk
              · rw [mem_inflowSet]
                exact ⟨hx, hv⟩)
        -- one-step reduction of the loop
        have hred : topoLoop g (fuel + 1) (e0 :: irest) ordering =
            topoLoop g fuel inflow3 (ordering ++ [x]) := by
          rw [topoLoop, hfind]
          show (List.foldlM (fun a nb => assocUpdateE nb (fun s => setRemove s x) a)
              ((e0 :: irest).filter (fun kv2 => decide (kv2.1 ≠ x)))
              (g.adjacency_list x) >>=
            fun inflow3 => topoLoop g fuel inflow3 (ordering ++ [x])) = _
          rw [hrun3, except_ok_bind]
        -- set up the invariants for the recursive call
        have hkeys3e : inflow3.map Prod.fst = ((e0 :: irest).map Prod.fst).erase x :=
          hkeys3.trans hkeys2
        have hlen3 : inflow3.length < fuel := by
          have h1 : inflow3.length = (inflow3.map Prod.fst).length :=
            (List.length_map _ _).symm
          have h2 : (((e0 :: irest).map Prod.fst).erase x).length =
              ((e0 :: irest).map Prod.fst).length - 1 :=
            List.length_erase_of_mem hx
          have h3 : ((e0 :: irest).map Prod.fst).length = (e0 :: irest).length :=
            List.length_map _ _
          rw [h1, hkeys3e, h2, h3]
          have h4 : 0 < (e0 :: irest).length := by simp
          omega
        have hperm3 : ((ordering ++ [x]) ++ inflow3.map Prod.fst).Perm g.nodes := by
          rw [hkeys3e, ← List.append_cons]
          refine List.Perm.trans ?_ hperm
          exact (List.perm_cons_erase hx).symm.append_left ordering
        have hvals3 : ∀ k, k ∈ inflow3.map Prod.fst →
            alookup inflow3 k = some (inflowSet g k (inflow3.map Prod.fst)) := by
          intro k hk
          rw [hkeys3e] at hk
          obtain ⟨hkne, hkmem⟩ := hndkeys.mem_erase_iff.mp hk
          have hbase : alookup ((e0 :: irest).filter (fun kv2 => decide (kv2.1 ≠ x))) k
              = some (inflowSet g k ((e0 :: irest).map Prod.fst)) := by
            rw [alookup_filter_ne x _ k hkne]
            exact hvals k hkmem
          rw [hkeys3e, inflowSet_erase g k x _ hndkeys, hlks3 k]
          by_cases hkadj : k ∈ g.adjacency_list x
          · rw [if_pos hkadj, hbase]
            rfl
          · rw [if_neg hkadj, hbase]
            have hxnot : x ∉ inflowSet g k ((e0 :: irest).map Prod.fst) := by
              rw [mem_inflowSet]
              rintro ⟨_, hc⟩
              exact hkadj hc
            rw [Finset.erase_eq_of_not_mem hxnot]
        have hcross3 : ∀ u ∈ inflow3.map Prod.fst, ∀ v ∈ ordering ++ [x],
            ¬ edgeStep g u v := by
          intro u hu v hv he
          rw [hkeys3e] at hu
          obtain ⟨_hune, humem⟩ := hndkeys.mem_erase_iff.mp hu
          rcases List.mem_append.mp hv with h | h
          · exact hcross u humem v h he
          · have hvx : v = x := by simpa using h
            rw [hvx] at he
            have hmemx : u ∈ inflowSet g x ((e0 :: irest).map Prod.fst) := by
              rw [mem_inflowSet]; exact ⟨humem, he⟩
            rw [← hxval] at hmemx
            cases hmemx
        have hpw3 : (ordering ++ [x]).Pairwise (fun a b => ¬ edgeStep g b a) := by
          rw [List.pairwise_append]
          refine ⟨hpw, List.pairwise_singleton _ _, ?_⟩
          intro a ha b hb
          have hbx : b = x := by simpa using hb
          rw [hbx]
          exact hcross x hx a ha
        have hself3 : ∀ v ∈ ordering ++ [x], ¬ edgeStep g v v := by
          intro v hv
          rcases List.mem_append.mp hv with h | h
          · exact hself v h
          · have hvx : v = x := by simpa using h
            rw [hvx]
            exact hnoself
        rw [hred]
        exact ih inflow3 (ordering ++ [x]) hlen3 hperm3 hvals3 hcross3 hpw3 hself3

/-- A rank function that strictly increases along every edge
certifies acyclicity. -/
theorem acyclic_of_rank (g : DirectedGraph) (hwf : g.WF) (rk : Nat → Nat)
    (h : ∀ u ∈ g.nodes, ∀ v ∈ g.adjacency_list u, rk u < rk v) : ¬ HasCycle g := by
  rintro ⟨n, hc⟩
  have hstep : ∀ a b, edgeStep g a b → rk a < rk b := by
    intro a b he
    have ha : a ∈ g.nodes := by
      by_contra ha
      rw [edgeStep, hwf.2.2.2 a ha] at he
      cases he
    exact h a ha b he
  have hmono : ∀ a b, Relation.TransGen (edgeStep g) a b → rk a < rk b := by
    intro a b h2
    induction h2 with
    | single h1 => exact hstep _ _ h1
    | tail _ h2 ih => exact ih.trans (hstep _ _ h2)
  exact absurd (hmono n n hc) (lt_irrefl _)

/-- Conditional correctness of topological_order, restricted to
duplicate-free adjacency lists: on such an acyclic graph it returns an
ordering of all the nodes in which the source of every edge appears
strictly before its destination, and on such a graph with a cycle it
raises exactly the cycle-detected error. With duplicate edges the
bound does not hold: see topological_order_keyerror_on_acyclic, the
C3 counterexample. -/
theorem topological_order_correct (g : DirectedGraph) (hwf : g.WF) :
    (¬ HasCycle g → ∃ ord, g.topological_order = .ok ord ∧ ord.Perm g.nodes ∧
      ∀ i j : Fin ord.length, edgeStep g (ord.get i) (ord.get j) → i < j) ∧
    (HasCycle g → g.topological_order = .error (.exception "Graph has cycles")) := by
  obtain ⟨inflow, hbuild, hkeys, hvals⟩ := buildInflow_spec g hwf
  have hrun : g.topological_order = topoLoop g (inflow.length + 1) inflow [] := by
    rw [DirectedGraph.topological_order, hbuild, except_ok_bind]
  have hres := topoLoop_spec g hwf (inflow.length + 1) inflow []
    (by omega)
    (by rw [List.nil_append, hkeys])
    (by rw [hkeys]; exact hvals)
    (by intro u _ v hv; cases hv)
    List.Pairwise.nil
    (by intro v hv; cases hv)
  constructor
  · intro hacyc
    rcases hres with ⟨ord, hok, hperm, hpw, hselfl⟩ | ⟨_, hcyc⟩
    · refine ⟨ord, hrun.trans hok, hperm, ?_⟩
      intro i j he
      have hnd : ord.Nodup := hperm.nodup_iff.mpr hwf.1
      rcases Nat.lt_trichotomy i.1 j.1 with h | h | h
      · exact h
      · exfalso
        have : ord.get i = ord.get j := congrArg ord.get (Fin.ext h)
        rw [this] at he
        exact hselfl _ (ord.get_mem _ _) he
      · exfalso
        exact List.pairwise_iff_get.mp hpw j i h he
    · exact absurd hcyc hacyc
  · intro hcyc
    rcases hres with ⟨ord, _, hperm, hpw, hselfl⟩ | ⟨herr, _⟩
    · exact absurd hcyc (acyclic_of_order g hwf ord hperm hpw (by
        intro u he
        have hu : u ∈ g.nodes := by
          by_contra hu
          rw [edgeStep, hwf.2.2.2 u hu] at he
          cases he
        exact hselfl u (hperm.mem_iff.mpr hu) he))
    · exact hrun.trans herr

/-- The acyclic 5-node example graph of the specification, as built by
from_edge_list. -/
def dagA : DirectedGraph :=
  { nodes := List.range 5
    adjacency_list := fun v => if v < 5 then
      (([(0, 1), (0, 2), (1, 3), (2, 3), (1, 4), (3, 4)] :
        List (Nat × Nat)).filter (fun e => e.1 == v)).map (fun e => e.2)
      else [] }

/-- The same edge set with (3, 0) added, closing a cycle. -/
def dagB : DirectedGraph :=
  { nodes := List.range 5
    adjacency_list := fun v => if v < 5 then
      (([(0, 1), (0, 2), (1, 3), (2, 3), (1, 4), (3, 4), (3, 0)] :
        List (Nat × Nat)).filter (fun e => e.1 == v)).map (fun e => e.2)
      else [] }

theorem dagA_from_edge_list :
    DirectedGraph.from_edge_list 5 [(0, 1), (0, 2), (1, 3), (2, 3), (1, 4), (3, 4)]
      = .ok dagA := rfl

theorem dagB_from_edge_list :
    DirectedGraph.from_edge_list 5 [(0, 1), (0, 2), (1, 3), (2, 3), (1, 4), (3, 4), (3, 0)]
      = .ok dagB := rfl

theorem dagA_WF : dagA.WF := by
  refine ⟨by decide, by decide, by decide, ?_⟩
  intro n hn
  exact if_neg (fun h => hn (List.mem_range.mpr h))

theorem dagB_WF : dagB.WF := by
  refine ⟨by decide, by decide, by decide, ?_⟩
  intro n hn
  exact if_neg (fun h => hn (List.mem_range.mpr h))

/-- The conditional correctness statement applied to the spec's two
concrete duplicate-free graphs: the acyclic one yields a node ordering
respecting all edges, the cyclic one raises the cycle error. -/
theorem topological_order_correct_witness :
    (∃ ord, dagA.topological_order = .ok ord ∧ ord.Perm dagA.nodes ∧
      ∀ i j : Fin ord.length, edgeStep dagA (ord.get i) (ord.get j) → i < j) ∧
    dagB.topological_order = .error (.exception "Graph has cycles") := by
  constructor
  · refine (topological_order_correct dagA dagA_WF).1 ?_
    refine acyclic_of_rank dagA dagA_WF id ?_
    decide
  · refine (topological_order_correct dagB dagB_WF).2 ?_
    refine ⟨0, ?_⟩
    have h01 : edgeStep dagB 0 1 := by decide
    have h13 : edgeStep dagB 1 3 := by decide
    have h30 : edgeStep dagB 3 0 := by decide
    exact Relation.TransGen.head h01 (Relation.TransGen.head h13
      (Relation.TransGen.single h30))

/-- The acyclic 2-node graph with a duplicated edge (0, 1), exactly as
from_edge_list(2, [(0, 1), (0, 1)]) builds it; the data model permits
duplicate edges (adjacency lists, not sets). -/
def dagDup : DirectedGraph :=
  { nodes := List.range 2
    adjacency_list := fun v => if v < 2 then
      (([(0, 1), (0, 1)] : List (Nat × Nat)).filter (fun e => e.1 == v)).map (fun e => e.2)
      else [] }

theorem dagDup_from_edge_list :
    DirectedGraph.from_edge_list 2 [(0, 1), (0, 1)] = .ok dagDup := rfl

/-- C3: code bug. Duplicate edges are permitted by the data model, and
on the acyclic graph from_edge_list(2, [(0, 1), (0, 1)])
topological_order raises KeyError instead of returning an ordering:
the inflow sets collapse the duplicated edge, so discharging node 0
iterates its adjacency list [1, 1] and calls inflow_list[1].remove(0)
twice — the second remove hits an empty set. This falsifies both
halves of the claim ("returns an ordering" on every acyclic graph, and
"raises only in that case"); the conditional correctness for
duplicate-free adjacency is kept separately in
topological_order_correct. -/
theorem topological_order_keyerror_on_acyclic :
    DirectedGraph.from_edge_list 2 [(0, 1), (0, 1)] = .ok dagDup ∧
    ¬ HasCycle dagDup ∧
    dagDup.topological_order = .error .keyError := by
  refine ⟨rfl, ?_, ?_⟩
  · rintro ⟨n, hc⟩
    have hstep : ∀ a b, edgeStep dagDup a b → a < b := by
      intro a b he
      rw [edgeStep] at he
      by_cases ha : a < 2
      · interval_cases a
        · have hb : b = 1 := by simpa [dagDup] using he
          omega
        · simp [dagDup] at he
      · rw [show dagDup.adjacency_list a = [] from if_neg ha] at he
        cases he
    have hmono : ∀ a b, Relation.TransGen (edgeStep dagDup) a b → a < b := by
      intro a b h2
      induction h2 with
      | single h1 => exact hstep _ _ h1
      | tail _ h2 ih => exact ih.trans (hstep _ _ h2)
    exact absurd (hmono n n hc) (lt_irrefl _)
  · rfl

/-! ## Undirected graphs (src/lib/undirected_graph.py, base in base_graph.py) -/

/-- Graph (base_graph.py) specialized to the undirected variant. -/
structure UndirectedGraph where
  nodes : List Nat
  adjacency_list : Nat → List Nat

/-- UndirectedGraph.from_edge_list: each edge (s, d) appends d to s's
list and s to d's list; an endpoint outside 0..n-1 raises KeyError. -/
def UndirectedGraph.from_edge_list (n : Nat) (edges : List (Nat × Nat)) :
    Except PyErr UndirectedGraph :=
  if edges.all (fun e => e.1 < n && e.2 < n) then
    .ok { nodes := List.range n
          adjacency_list := fun v =>
            if v < n then
              edges.bind (fun e =>
                (if e.1 = v then [e.2] else []) ++ (if e.2 = v then [e.1] else []))
            else [] }
  else .error .keyError

/-- Well-formedness: the node list is a set, adjacency stays within the
node set, is [] off it, and membership is symmetric (as from_edge_list
guarantees by inserting both directions). -/
def UndirectedGraph.WF (g : UndirectedGraph) : Prop :=
  g.nodes.Nodup ∧
  (∀ n ∈ g.nodes, ∀ v ∈ g.adjacency_list n, v ∈ g.nodes) ∧
  (∀ n, n ∉ g.nodes → g.adjacency_list n = []) ∧
  (∀ a b, b ∈ g.adjacency_list a → a ∈ g.adjacency_list b)

/-- Graph.size: the number of nodes. -/
def UndirectedGraph.size (g : UndirectedGraph) : Nat := g.nodes.length

/-- UndirectedGraph.num_edges: for every (source, destinations) item
of the adjacency dict, count the destinations smaller than the source,
so each symmetric pair is counted once (and self-loops never). -/
def UndirectedGraph.num_edges (g : UndirectedGraph) : Nat :=
  (g.nodes.map (fun source =>
    ((g.adjacency_list source).filter (fun dest => decide (source > dest))).length)).sum

/-- Graph.subgraph_from_nodes: new node set with copies of the full
adjacency lists of those nodes (the dict only has the given keys). -/
def UndirectedGraph.subgraph_from_nodes (g : UndirectedGraph) (ns : List Nat) :
    UndirectedGraph :=
  { nodes := ns
    adjacency_list := fun v => if v ∈ ns then g.adjacency_list v else [] }

/-- The while loop of Graph.graph_traversal_dfs: pop from the end of
the stack, skip already-visited nodes, otherwise record the node in
discovery order and push all its successors. Fuel-indexed; one unit is
consumed per iteration. -/
def dfsLoop (adjacency_list : Nat → List Nat) :
    Nat → List Nat → List Nat → List Nat
  | 0, _, visited => visited
  | fuel + 1, stack, visited =>
    match stack.getLast? with
    | none => visited
    | some current =>
      if current ∈ visited then
        dfsLoop adjacency_list fuel stack.dropLast visited
      else
        dfsLoop adjacency_list fuel (stack.dropLast ++ adjacency_list current)
          (visited ++ [current])

/-- Graph.graph_traversal_dfs: the visited nodes in discovery order.
The iteration count of the source loop is bounded by one plus the
total number of pushes, which is bounded by the initial stack plus the
sum of all adjacency degrees, so the supplied fuel is never
exhausted. -/
def UndirectedGraph.graph_traversal_dfs (g : UndirectedGraph) (start_node : Nat) :
    List Nat :=
  dfsLoop g.adjacency_list
    ((g.nodes.toFinset.sum (fun a => (g.adjacency_list a).length + 1)) + 2)
    [start_node] []

/-- The while loop of Graph.connected_components: pop a start node
from the remaining pool (set.pop, modeled as taking the head), extract
its traversal as a component subgraph, and drop the traversed nodes
from the pool. One pool element disappears per iteration, so the fuel
is never exhausted. -/
def ccLoop (g : UndirectedGraph) :
    Nat → List Nat → List UndirectedGraph → List UndirectedGraph
  | 0, _, acc => acc
  | fuel + 1, remaining, acc =>
    match remaining with
    | [] => acc
    | current_start :: _ =>
      let comp := g.graph_traversal_dfs current_start
      ccLoop g fuel (remaining.filter (fun n => decide (n ∉ comp)))
        (acc ++ [g.subgraph_from_nodes comp])

/-- Graph.connected_components. -/
def UndirectedGraph.connected_components (g : UndirectedGraph) : List UndirectedGraph :=
  ccLoop g (g.nodes.length + 1) g.nodes []

/-- UndirectedGraph.is_tree: no component may have more edges than its
size minus one. -/
def UndirectedGraph.is_tree (g : UndirectedGraph) : Bool :=
  g.connected_components.all (fun c => !(decide (c.num_edges > c.size - 1)))

/-- A discovery order: every element is either the start node or
adjacent to some element recorded before it. -/
def ChainedAux (adjacency_list : Nat → List Nat) (s : Nat) :
    List Nat → List Nat → Prop
  | _, [] => True
  | seen, v :: rest =>
    (v = s ∨ ∃ u ∈ seen, v ∈ adjacency_list u) ∧
    ChainedAux adjacency_list s (seen ++ [v]) rest

def Chained (adjacency_list : Nat → List Nat) (s : Nat) (l : List Nat) : Prop :=
  ChainedAux adjacency_list s [] l

theorem chainedAux_snoc (adjacency_list : Nat → List Nat) (s : Nat) :
    ∀ (l : List Nat) (seen : List Nat) (v : Nat),
    ChainedAux adjacency_list s seen (l ++ [v]) ↔
      ChainedAux adjacency_list s seen l ∧
      (v = s ∨ ∃ u ∈ seen ++ l, v ∈ adjacency_list u) := by
  intro l
  induction l with
  | nil =>
    intro seen v
    simp only [List.nil_append, ChainedAux, and_true, List.append_nil]
    tauto
  | cons w rest ih =>
    intro seen v
    simp only [List.cons_append, ChainedAux, List.append_eq]
    rw [ih (seen ++ [w]) v]
    constructor
    · rintro ⟨h1, h2, h3⟩
      refine ⟨⟨h1, h2⟩, ?_⟩
      rcases h3 with h3 | ⟨u, hu, hadj⟩
      · exact Or.inl h3
      · refine Or.inr ⟨u, ?_, hadj⟩
        simp only [List.append_assoc, List.singleton_append] at hu ⊢
        exact hu
    · rintro ⟨⟨h1, h2⟩, h3⟩
      refine ⟨h1, h2, ?_⟩
      rcases h3 with h3 | ⟨u, hu, hadj⟩
      · exact Or.inl h3
      · refine Or.inr ⟨u, ?_, hadj⟩
        simp only [List.append_assoc, List.singleton_append] at hu ⊢
        exact hu

theorem chained_snoc (adjacency_list : Nat → List Nat) (s : Nat) (l : List Nat) (v : Nat) :
    Chained adjacency_list s (l ++ [v]) ↔
      Chained adjacency_list s l ∧ (v = s ∨ ∃ u ∈ l, v ∈ adjacency_list u) := by
  rw [Chained, Chained, chainedAux_snoc]
  simp

/-- In a nonempty chained list the start node is the head, hence a
member. -/
theorem chained_head (adjacency_list : Nat → List Nat) (s : Nat) :
    ∀ (l : List Nat), Chained adjacency_list s l → l ≠ [] → s ∈ l := by
  intro l
  cases l with
  | nil => intro _ h; exact absurd rfl h
  | cons v rest =>
    intro hc _
    obtain ⟨h1, _⟩ := hc
    rcases h1 with h1 | ⟨u, hu, _⟩
    · subst h1; exact List.mem_cons_self ..
    · cases hu

/-- Correctness of the DFS loop: under the degree-sum fuel bound the
loop returns a duplicate-free discovery order of nodes of the graph
that is chained from the start node and contains it. -/
theorem dfsLoop_spec (g : UndirectedGraph) (hwf : g.WF) (s : Nat) :
    ∀ (fuel : Nat) (stack visited : List Nat),
    stack.length + ((g.nodes.toFinset \ visited.toFinset).sum
      (fun a => (g.adjacency_list a).length + 1)) < fuel →
    (∀ v ∈ stack, v ∈ g.nodes) →
    (∀ v ∈ visited, v ∈ g.nodes) →
    visited.Nodup →
    (∀ v ∈ stack, v = s ∨ ∃ u ∈ visited, v ∈ g.adjacency_list u) →
    Chained g.adjacency_list s visited →
    (s ∈ visited ∨ s ∈ stack) →
    (dfsLoop g.adjacency_list fuel stack visited).Nodup ∧
    (∀ v ∈ dfsLoop g.adjacency_list fuel stack visited, v ∈ g.nodes) ∧
    Chained g.adjacency_list s (dfsLoop g.adjacency_list fuel stack visited) ∧
    s ∈ dfsLoop g.adjacency_list fuel stack visited := by
  intro fuel
  induction fuel with
  | zero => intro stack visited hfuel; omega
  | succ fuel ih =>
    intro stack visited hfuel hstkN hvisN hnd hpar hch hsinv
    cases hlast : stack.getLast? with
    | none =>
      have hstk : stack = [] := List.getLast?_eq_none.mp hlast
      subst hstk
      rw [dfsLoop, hlast]
      refine ⟨hnd, hvisN, hch, ?_⟩
      rcases hsinv with h | h
      · exact h
      · cases h
    | some current =>
      have hne : stack ≠ [] := by
        intro h; subst h; cases hlast
      have hcur : current = stack.getLast hne := by
        have := List.getLast?_eq_getLast stack hne
        rw [hlast] at this
        exact Option.some.inj this
      have hsplit : stack.dropLast ++ [current] = stack := by
        rw [hcur]; exact List.dropLast_concat_getLast hne
      have hcurstk : current ∈ stack := by
        rw [hcur]; exact List.getLast_mem hne
      have hcurN : current ∈ g.nodes := hstkN current hcurstk
      have hdropN : ∀ v ∈ stack.dropLast, v ∈ g.nodes :=
        fun v hv => hstkN v ((List.dropLast_sublist stack).subset hv)
      have hdroppar : ∀ v ∈ stack.dropLast, v = s ∨ ∃ u ∈ visited, v ∈ g.adjacency_list u :=
        fun v hv => hpar v ((List.dropLast_sublist stack).subset hv)
      have hlendrop : stack.dropLast.length = stack.length - 1 := List.length_dropLast stack
      have hlenpos : 0 < stack.length := List.length_pos.mpr hne
      by_cases hvis : current ∈ visited
      · simp only [dfsLoop, hlast]
        rw [if_pos hvis]
        refine ih stack.dropLast visited (by omega) hdropN hvisN hnd hdroppar hch ?_
        rcases hsinv with h | h
        · exact Or.inl h
        · rw [← hsplit] at h
          rcases List.mem_append.mp h with h2 | h2
          · exact Or.inr h2
          · have : s = current := by simpa using h2
            exact Or.inl (this ▸ hvis)
      · simp only [dfsLoop, hlast]
        rw [if_neg hvis]
        have hcurdiff : current ∈ g.nodes.toFinset \ visited.toFinset := by
          rw [Finset.mem_sdiff, List.mem_toFinset, List.mem_toFinset]
          exact ⟨hcurN, hvis⟩
        have hsum : (g.nodes.toFinset \ (visited ++ [current]).toFinset).sum
            (fun a => (g.adjacency_list a).length + 1) + ((g.adjacency_list current).length + 1)
            = (g.nodes.toFinset \ visited.toFinset).sum
              (fun a => (g.adjacency_list a).length + 1) := by
          rw [show g.nodes.toFinset \ (visited ++ [current]).toFinset
              = (g.nodes.toFinset \ visited.toFinset).erase current by
            ext a
            simp only [Finset.mem_erase, Finset.mem_sdiff, List.toFinset_append,
              Finset.mem_union, List.mem_toFinset, List.toFinset_cons,
              List.toFinset_nil, insert_emptyc_eq, Finset.mem_insert,
              Finset.not_mem_empty, or_false, List.mem_singleton,
              Finset.mem_singleton]
            tauto]
          exact Finset.sum_erase_add _ _ hcurdiff
        refine ih (stack.dropLast ++ g.adjacency_list current) (visited ++ [current])
          ?_ ?_ ?_ ?_ ?_ ?_ ?_
        · rw [List.length_append]
          omega
        · intro v hv
          rcases List.mem_append.mp hv with h | h
          · exact hdropN v h
          · exact hwf.2.1 current hcurN v h
        · intro v hv
          rcases List.mem_append.mp hv with h | h
          · exact hvisN v h
          · have : v = current := by simpa using h
            exact this ▸ hcurN
        · rw [List.nodup_append]
          exact ⟨hnd, List.nodup_singleton current, by
            intro a ha hb
            have : a = current := by simpa using hb
            exact hvis (this ▸ ha)⟩
        · intro v hv
          rcases List.mem_append.mp hv with h | h
          · rcases hdroppar v h with h2 | ⟨u, hu, hadj⟩
            · exact Or.inl h2
            · exact Or.inr ⟨u, List.mem_append.mpr (Or.inl hu), hadj⟩
          · exact Or.inr ⟨current, List.mem_append.mpr (Or.inr (List.mem_singleton.mpr rfl)), h⟩
        · rw [chained_snoc]
          exact ⟨hch, hpar current hcurstk⟩
        · rcases hsinv with h | h
          · exact Or.inl (List.mem_append.mpr (Or.inl h))
          · rw [← hsplit] at h
            rcases List.mem_append.mp h with h2 | h2
            · exact Or.inr (List.mem_append.mpr (Or.inl h2))
            · have : s = current := by simpa using h2
              exact Or.inl (List.mem_append.mpr (Or.inr (by simp [this])))

/-- graph_traversal_dfs from a node of the graph returns a
duplicate-free chained discovery order containing the start. -/
theorem graph_traversal_dfs_spec (g : UndirectedGraph) (hwf : g.WF) (s : Nat)
    (hs : s ∈ g.nodes) :
    (g.graph_traversal_dfs s).Nodup ∧
    (∀ v ∈ g.graph_traversal_dfs s, v ∈ g.nodes) ∧
    Chained g.adjacency_list s (g.graph_traversal_dfs s) ∧
    s ∈ g.graph_traversal_dfs s := by
  refine dfsLoop_spec g hwf s _ [s] [] ?_ ?_ ?_ List.nodup_nil ?_ trivial (Or.inr (by simp))
  · simp only [List.length_singleton, List.toFinset_nil, Finset.sdiff_empty]
    omega
  · intro v hv
    have : v = s := by simpa using hv
    exact this ▸ hs
  · intro v hv; cases hv
  · intro v hv
    exact Or.inl (by simpa using hv)

/-- The destinations smaller than a given source, as counted once each
by num_edges. -/
def smallerNbrs (g : UndirectedGraph) (a : Nat) : Finset Nat :=
  ((g.adjacency_list a).filter (fun dest => decide (a > dest))).toFinset

/-- The distinct source-greater-than-destination pairs with both
endpoints inside a node pool. -/
def pairSetIn (g : UndirectedGraph) (l : List Nat) : Finset (Nat × Nat) :=
  l.toFinset.biUnion (fun a => ((smallerNbrs g a) ∩ l.toFinset).image (fun b => (a, b)))

theorem mem_pairSetIn (g : UndirectedGraph) (l : List Nat) (a b : Nat) :
    (a, b) ∈ pairSetIn g l ↔
      a ∈ l ∧ b ∈ l ∧ b ∈ g.adjacency_list a ∧ b < a := by
  simp only [pairSetIn, smallerNbrs, Finset.mem_biUnion, Finset.mem_image,
    Finset.mem_inter, List.mem_toFinset, List.mem_filter, decide_eq_true_eq,
    Prod.mk.injEq]
  constructor
  · rintro ⟨a2, ha2, b2, ⟨⟨hb2adj, hb2lt⟩, hb2l⟩, rfl, rfl⟩
    exact ⟨ha2, hb2l, hb2adj, hb2lt⟩
  · rintro ⟨ha, hb, hadj, hlt⟩
    exact ⟨a, ha, b, ⟨⟨hadj, hlt⟩, hb⟩, rfl, rfl⟩

theorem pairSetIn_mono (g : UndirectedGraph) (l : List Nat) (v : Nat) :
    pairSetIn g l ⊆ pairSetIn g (l ++ [v]) := by
  intro p hp
  obtain ⟨a, b⟩ := p
  rw [mem_pairSetIn] at hp ⊢
  refine ⟨List.mem_append.mpr (Or.inl hp.1),
    List.mem_append.mpr (Or.inl hp.2.1), hp.2.2⟩

/-- A duplicate-free chained discovery order over a symmetric
adjacency has at least length-minus-one distinct internal edges. -/
theorem pairSetIn_card_ge (g : UndirectedGraph)
    (hsym : ∀ a b, b ∈ g.adjacency_list a → a ∈ g.adjacency_list b) (s : Nat)
    (l : List Nat) :
    l.Nodup → Chained g.adjacency_list s l →
    l.length - 1 ≤ (pairSetIn g l).card := by
  induction l using List.reverseRecOn with
  | nil => intro _ _; simp
  | append_singleton l v ih =>
    intro hnd hch
    rw [chained_snoc] at hch
    obtain ⟨hchl, hv⟩ := hch
    rcases List.nodup_append.mp hnd with ⟨hndl, _, hdisj⟩
    have hvl : v ∉ l := fun hm => hdisj hm (List.mem_singleton.mpr rfl)
    cases hl : l with
    | nil => simp
    | cons x rest =>
      rw [← hl]
      have hlne : l ≠ [] := by rw [hl]; exact List.cons_ne_nil x rest
      obtain ⟨p, hp, hadj⟩ : ∃ u ∈ l, v ∈ g.adjacency_list u := by
        rcases hv with hvs | h
        · exact absurd (hvs ▸ chained_head g.adjacency_list s l hchl hlne) hvl
        · exact h
      have hpv : p ≠ v := fun he => hvl (he ▸ hp)
      have hq : ∃ q, q ∈ pairSetIn g (l ++ [v]) ∧ q ∉ pairSetIn g l := by
        rcases Nat.lt_or_ge p v with hlt | hge
        · refine ⟨(v, p), ?_, ?_⟩
          · rw [mem_pairSetIn]
            exact ⟨List.mem_append.mpr (Or.inr (List.mem_singleton.mpr rfl)),
              List.mem_append.mpr (Or.inl hp), hsym p v hadj, hlt⟩
          · rw [mem_pairSetIn]
            rintro ⟨hvl2, _, _, _⟩
            exact hvl hvl2
        · have hlt : v < p := by omega
          refine ⟨(p, v), ?_, ?_⟩
          · rw [mem_pairSetIn]
            exact ⟨List.mem_append.mpr (Or.inl hp),
              List.mem_append.mpr (Or.inr (List.mem_singleton.mpr rfl)), hadj, hlt⟩
          · rw [mem_pairSetIn]
            rintro ⟨_, hvl2, _, _⟩
            exact hvl hvl2
      obtain ⟨q, hqin, hqout⟩ := hq
      have hsub : insert q (pairSetIn g l) ⊆ pairSetIn g (l ++ [v]) :=
        Finset.insert_subset_iff.mpr ⟨hqin, pairSetIn_mono g l v⟩
      have hcard : (pairSetIn g l).card + 1 ≤ (pairSetIn g (l ++ [v])).card := by
        rw [← Finset.card_insert_of_not_mem hqout]
        exact Finset.card_le_card hsub
      have hih := ih hndl hchl
      have hlen : 0 < l.length := List.length_pos.mpr hlne
      rw [List.length_append]
      simp only [List.length_singleton]
      omega

/-- num_edges of the induced subgraph over a duplicate-free chained
pool is at least the pool size minus one. -/
theorem subgraph_num_edges_ge (g : UndirectedGraph) (hwf : g.WF) (s : Nat)
    (comp : List Nat) (hnd : comp.Nodup)
    (hch : Chained g.adjacency_list s comp) :
    (g.subgraph_from_nodes comp).size - 1 ≤ (g.subgraph_from_nodes comp).num_edges := by
  have hpairs := pairSetIn_card_ge g hwf.2.2.2 s comp hnd hch
  have hcount : (pairSetIn g comp).card ≤ (g.subgraph_from_nodes comp).num_edges := by
    rw [pairSetIn, Finset.card_biUnion (by
      intro a ha b hb hab
      rw [Finset.disjoint_iff_ne]
      rintro p hp q hq rfl
      rw [Finset.mem_image] at hp hq
      obtain ⟨_, _, hpe⟩ := hp
      obtain ⟨_, _, hqe⟩ := hq
      rw [← hpe] at hqe
      exact hab ((Prod.mk.injEq ..).mp hqe).1.symm)]
    rw [UndirectedGraph.num_edges]
    have hadjeq : ∀ a ∈ comp,
        ((g.subgraph_from_nodes comp).adjacency_list a) = g.adjacency_list a := by
      intro a ha
      show (if a ∈ comp then g.adjacency_list a else []) = _
      rw [if_pos ha]
    show _ ≤ (List.map (fun source =>
      (((g.subgraph_from_nodes comp).adjacency_list source).filter
        (fun dest => decide (source > dest))).length) comp).sum
    rw [List.map_congr_left (fun a ha => by rw [hadjeq a ha])]
    rw [← List.sum_toFinset _ hnd]
    refine Finset.sum_le_sum ?_
    intro a _
    calc ((smallerNbrs g a ∩ comp.toFinset).image (fun b => (a, b))).card
        = (smallerNbrs g a ∩ comp.toFinset).card :=
          Finset.card_image_of_injective _ (fun x y hxy => ((Prod.mk.injEq ..).mp hxy).2)
      _ ≤ (smallerNbrs g a).card := Finset.card_le_card Finset.inter_subset_left
      _ ≤ ((g.adjacency_list a).filter (fun dest => decide (a > dest))).length :=
          List.toFinset_card_le _
  have hsize : (g.subgraph_from_nodes comp).size = comp.length := rfl
  omega

/-- Every component the loop produces satisfies any property that
holds of every traversal-induced subgraph. -/
theorem ccLoop_all (g : UndirectedGraph) (hwf : g.WF) (P : UndirectedGraph → Prop)
    (hP : ∀ s ∈ g.nodes, P (g.subgraph_from_nodes (g.graph_traversal_dfs s))) :
    ∀ (fuel : Nat) (remaining : List Nat) (acc : List UndirectedGraph),
    remaining.length < fuel →
    (∀ v ∈ remaining, v ∈ g.nodes) →
    (∀ c ∈ acc, P c) →
    ∀ c ∈ ccLoop g fuel remaining acc, P c := by
  intro fuel
  induction fuel with
  | zero => intro remaining acc hlen; omega
  | succ fuel ih =>
    intro remaining acc hlen hrem hacc
    cases remaining with
    | nil => exact hacc
    | cons r rest =>
      have hr : r ∈ g.nodes := hrem r (List.mem_cons_self ..)
      have hrcomp : r ∈ g.graph_traversal_dfs r :=
        (graph_traversal_dfs_spec g hwf r hr).2.2.2
      show ∀ c ∈ ccLoop g fuel
        ((r :: rest).filter (fun n => decide (n ∉ g.graph_traversal_dfs r)))
        (acc ++ [g.subgraph_from_nodes (g.graph_traversal_dfs r)]), P c
      refine ih _ _ ?_ ?_ ?_
      · rw [List.filter_cons_of_neg (by simp [hrcomp])]
        have := List.length_filter_le
          (fun n => decide (n ∉ g.graph_traversal_dfs r)) rest
        simp only [List.length_cons] at hlen
        omega
      · intro v hv
        exact hrem v (List.mem_of_mem_filter hv)
      · intro c hc
        rcases List.mem_append.mp hc with h | h
        · exact hacc c h
        · have : c = g.subgraph_from_nodes (g.graph_traversal_dfs r) := by simpa using h
          exact this ▸ hP r hr

/-- C8: is_tree is true exactly when every connected component the
code computes has edge count equal to its node count minus one: per
component, num_edges never exceeds size minus one exactly when
is_tree holds, and a component (a chained traversal of distinct nodes)
always has at least size minus one edges, so the bound is an
equality. -/
theorem is_tree_iff (g : UndirectedGraph) (hwf : g.WF) :
    g.is_tree = true ↔
      ∀ c ∈ g.connected_components, c.num_edges = c.size - 1 := by
  have hLB : ∀ c ∈ g.connected_components, c.size - 1 ≤ c.num_edges := by
    refine ccLoop_all g hwf (fun c => c.size - 1 ≤ c.num_edges) ?_
      (g.nodes.length + 1) g.nodes [] (by omega) (fun v hv => hv)
      (fun c hc => absurd hc (List.not_mem_nil c))
    intro s hs
    obtain ⟨hnd, _, hch, _⟩ := graph_traversal_dfs_spec g hwf s hs
    exact subgraph_num_edges_ge g hwf s _ hnd hch
  rw [UndirectedGraph.is_tree, List.all_eq_true]
  constructor
  · intro h c hc
    have h2 := h c hc
    rw [Bool.not_eq_eq_eq_not, Bool.not_true, decide_eq_false_iff_not, Nat.not_lt] at h2
    have h3 := hLB c hc
    omega
  · intro h c hc
    have h2 := h c hc
    rw [Bool.not_eq_eq_eq_not, Bool.not_true, decide_eq_false_iff_not, Nat.not_lt]
    omega

/-- Well-formedness from finitely checkable conditions for graphs in
from_edge_list shape. -/
theorem UWF_of_checks (g : UndirectedGraph) (n : Nat)
    (hnodes : g.nodes = List.range n)
    (hoff : ∀ v, n ≤ v → g.adjacency_list v = [])
    (hin : ∀ a ∈ g.nodes, ∀ b ∈ g.adjacency_list a, b ∈ g.nodes)
    (hsymb : ∀ a ∈ g.nodes, ∀ b ∈ g.adjacency_list a, a ∈ g.adjacency_list b) :
    g.WF := by
  refine ⟨by rw [hnodes]; exact List.nodup_range n, hin, ?_, ?_⟩
  · intro m hm
    refine hoff m ?_
    rw [hnodes, List.mem_range] at hm
    omega
  · intro a b hb
    by_cases ha : a ∈ g.nodes
    · exact hsymb a ha b hb
    · rw [hoff a (by rw [hnodes, List.mem_range] at ha; omega)] at hb
      cases hb

/-- The spec's 7-node tree example, as built by from_edge_list. -/
def treeG : UndirectedGraph :=
  { nodes := List.range 7
    adjacency_list := fun v => if v < 7 then
      (([(0, 1), (1, 2), (2, 3), (2, 4), (4, 5), (2, 6)] : List (Nat × Nat)).bind
        (fun e => (if e.1 = v then [e.2] else []) ++ (if e.2 = v then [e.1] else [])))
      else [] }

/-- The same edges plus (0, 6), which closes a second route. -/
def nonTreeG : UndirectedGraph :=
  { nodes := List.range 7
    adjacency_list := fun v => if v < 7 then
      (([(0, 1), (1, 2), (2, 3), (2, 4), (4, 5), (2, 6), (0, 6)] : List (Nat × Nat)).bind
        (fun e => (if e.1 = v then [e.2] else []) ++ (if e.2 = v then [e.1] else [])))
      else [] }

/-- A disconnected forest: two disjoint single-edge components plus an
isolated node. -/
def forestG : UndirectedGraph :=
  { nodes := List.range 5
    adjacency_list := fun v => if v < 5 then
      (([(0, 1), (2, 3)] : List (Nat × Nat)).bind
        (fun e => (if e.1 = v then [e.2] else []) ++ (if e.2 = v then [e.1] else [])))
      else [] }

theorem treeG_from_edge_list :
    UndirectedGraph.from_edge_list 7 [(0, 1), (1, 2), (2, 3), (2, 4), (4, 5), (2, 6)]
      = .ok treeG := rfl

theorem nonTreeG_from_edge_list :
    UndirectedGraph.from_edge_list 7 [(0, 1), (1, 2), (2, 3), (2, 4), (4, 5), (2, 6), (0, 6)]
      = .ok nonTreeG := rfl

theorem treeG_WF : treeG.WF :=
  UWF_of_checks treeG 7 rfl (fun v hv => if_neg (by omega)) (by decide) (by decide)

/-- C8 witness: the characterization applied to the spec's tree
example, together with the concrete evaluations: the 7-node tree
passes, adding edge (0, 6) fails, and a disconnected forest whose
components are all trees passes. -/
theorem is_tree_iff_witness :
    treeG.WF ∧
    (treeG.is_tree = true ↔
      ∀ c ∈ treeG.connected_components, c.num_edges = c.size - 1) ∧
    treeG.is_tree = true ∧ nonTreeG.is_tree = false ∧ forestG.is_tree = true :=
  ⟨treeG_WF, is_tree_iff treeG treeG_WF, by decide, by decide, by decide⟩

/-! ## Grid path search (src/lib/grid.py) -/

/-- DIRECTIONS from grid.py. -/
def DIRECTIONS : List (Int × Int) := [(0, 1), (1, 0), (0, -1), (-1, 0)]

/-- manhattan_distance (src/lib/distance_utils.py). -/
def manhattan_distance (source dest : Pos) : Nat :=
  (dest.1 - source.1).natAbs + (dest.2 - source.2).natAbs

/-- Total in-bounds cell state read, used only under the bounds guard
of `neighbors` (Python indexes with verified non-negative indices
there). -/
def cellStateAt (g : GridGraph) (r c : Int) : CellState :=
  ((g.cells.getD c.toNat []).getD r.toNat Cell.init).state

/-- GridGraph.neighbors before shuffling: the orthogonally adjacent
in-bounds coordinates whose cell is not INACTIVE, in DIRECTIONS
order. -/
def neighborsRaw (g : GridGraph) (row col : Int) : List Pos :=
  (DIRECTIONS.map (fun d => (row + d.1, col + d.2))).filter
    (fun p => decide (0 ≤ p.1 ∧ p.1 < (g.height : Int) ∧
        0 ≤ p.2 ∧ p.2 < (g.width : Int)) &&
      decide (cellStateAt g p.1 p.2 ≠ CellState.INACTIVE))

/-- One grid adjacency step: the target is a non-INACTIVE in-bounds
neighbour of the source. -/
def adjStep (g : GridGraph) (u v : Pos) : Prop :=
  v ∈ neighborsRaw g u.1 u.2

/-- The target of the path search: the goal is reachable from the
start through non-INACTIVE cells. -/
def ReachesFrom (g : GridGraph) (s v : Pos) : Prop :=
  Relation.ReflTransGen (adjStep g) s v

/-- A grid adjacency step whose target additionally lies in a given
protected pool (used to certify that a found path stays passable). -/
def adjStepIn (g : GridGraph) (P : List Pos) (u v : Pos) : Prop :=
  v ∈ neighborsRaw g u.1 u.2 ∧ v ∈ P

/-- All in-bounds grid coordinates. -/
def allPositions (g : GridGraph) : Finset Pos :=
  ((Finset.range g.height) ×ˢ (Finset.range g.width)).image
    (fun ij => ((ij.1 : Int), (ij.2 : Int)))

/-- Result of one search run: a path found, frontier exhaustion
(Python returns None), or fuel exhaustion (a modeling artifact proved
unreachable). -/
inductive SearchOutcome
  | found (path : List Pos)
  | nopath
  | fuelOut
deriving DecidableEq, Repr

/-- The common neighbour-processing loop of all four searches: enqueue
each neighbour that is not in the visited set and mark it visited.
`push` is the frontier insertion discipline of the caller. -/
def pushNeighbors (push : Pos → List Pos → List Pos) :
    List Pos → List Pos → Finset Pos → List Pos × Finset Pos
  | [], frontier, visited => (frontier, visited)
  | v :: vs, frontier, visited =>
    if v ∈ visited then pushNeighbors push vs frontier visited
    else pushNeighbors push vs (push v frontier) (insert v visited)

/-- The common skeleton of the four search loops: remove a node from
the frontier (`sel`, the per-algorithm frontier discipline, possibly
step-dependent), append it to the visit order, stop at the goal, and
otherwise enqueue its unseen (shuffled) neighbours. The grid is
threaded through and returned so that its preservation can be
stated. -/
def searchLoop (g : GridGraph) (goal : Pos)
    (sel : Nat → List Pos → Option (Pos × List Pos))
    (push : Pos → List Pos → List Pos)
    (shuf : Nat → List Pos → List Pos) :
    Nat → Nat → List Pos → Finset Pos → List Pos → SearchOutcome × GridGraph
  | 0, _, _, _, _ => (.fuelOut, g)
  | fuel + 1, n, frontier, visited, path =>
    match sel n frontier with
    | none => (.nopath, g)
    | some (current, rest) =>
      if current = goal then (.found (path ++ [current]), g)
      else
        let ns := shuf n (neighborsRaw g current.1 current.2)
        let fv := pushNeighbors push ns rest visited
        searchLoop g goal sel push shuf fuel (n + 1) fv.1 fv.2 (path ++ [current])

/-- Frontier discipline of find_path_bfs and find_path_dfs: pop from
the end of the list. -/
def popLast (l : List Pos) : Option (Pos × List Pos) :=
  match l.getLast? with
  | none => none
  | some x => some (x, l.dropLast)

/-- The foldl step computing the minimum of a PrioritizedNeighbor key
(Manhattan distance to the goal, ties broken by position, exactly the
derived lexicographic dataclass order). -/
def pnLtB (t : Pos) (p q : Pos) : Bool :=
  decide (manhattan_distance p t < manhattan_distance q t) ||
    (decide (manhattan_distance p t = manhattan_distance q t) &&
      (decide (p.1 < q.1) || (decide (p.1 = q.1) && decide (p.2 < q.2))))

/-- Remove the first occurrence of an element. -/
def removeFirst (m : Pos) : List Pos → List Pos
  | [] => []
  | x :: xs => if x = m then xs else x :: removeFirst m xs

/-- Frontier discipline of the two greedy searches: heappop returns
the minimum element of the heap under the PrioritizedNeighbor order;
the remaining frontier is the same multiset. -/
def popMin (t : Pos) (l : List Pos) : Option (Pos × List Pos) :=
  match l with
  | [] => none
  | x :: xs =>
    let m := xs.foldl (fun m p => if pnLtB t p m then p else m) x
    some (m, removeFirst m (x :: xs))

/-- Remove the element at a given index (list.pop(i)). -/
def popIdx (i : Nat) (l : List Pos) : Option (Pos × List Pos) :=
  match l with
  | [] => none
  | _ :: _ =>
    if h : i < l.length then some (l.get ⟨i, h⟩, l.eraseIdx i)
    else none

/-- Frontier discipline of find_path_greedy_semirandom_bfs: the source
increments `steps` at the top of the loop and compares `steps > 10`,
so iterations 0..9 (0-based) remove the element at a random index
(`pick` is the randrange oracle) and later iterations behave as pure
greedy. -/
def semirandomSel (t : Pos) (pick : Nat → Nat) (n : Nat) (l : List Pos) :
    Option (Pos × List Pos) :=
  if n + 1 > 10 then popMin t l
  else popIdx (pick n % l.length) l

/-- GridGraph.find_path_bfs: queue-like frontier (children inserted at
the front, consumption from the end), shuffled neighbours. Returns the
Python return value paired with the grid after the call. -/
def find_path_bfs (g : GridGraph) (shuf : Nat → List Pos → List Pos) :
    Option (List Pos) × GridGraph :=
  match g.current, g.goal with
  | some s, some t =>
    match searchLoop g t (fun _ l => popLast l) (fun x l => x :: l) shuf
        (2 * (allPositions g).card + 2) 0 [s] ∅ [] with
    | (.found p, g2) => (some p, g2)
    | (_, g2) => (none, g2)
  | _, _ => (none, g)

/-- GridGraph.find_path_dfs: stack frontier, optionally shuffled
neighbours (the unshuffled order is the identity shuffle). -/
def find_path_dfs (g : GridGraph) (shuf : Nat → List Pos → List Pos) :
    Option (List Pos) × GridGraph :=
  match g.current, g.goal with
  | some s, some t =>
    match searchLoop g t (fun _ l => popLast l) (fun x l => l ++ [x]) shuf
        (2 * (allPositions g).card + 2) 0 [s] ∅ [] with
    | (.found p, g2) => (some p, g2)
    | (_, g2) => (none, g2)
  | _, _ => (none, g)

/-- GridGraph.find_path_greedy_bfs: heap frontier popped at the
minimum Manhattan distance to the goal. -/
def find_path_greedy_bfs (g : GridGraph) (shuf : Nat → List Pos → List Pos) :
    Option (List Pos) × GridGraph :=
  match g.current, g.goal with
  | some s, some t =>
    match searchLoop g t (fun _ l => popMin t l) (fun x l => l ++ [x]) shuf
        (2 * (allPositions g).card + 2) 0 [s] ∅ [] with
    | (.found p, g2) => (some p, g2)
    | (_, g2) => (none, g2)
  | _, _ => (none, g)

/-- GridGraph.find_path_greedy_semirandom_bfs: random removal for the
first ten expansions, pure greedy afterwards. -/
def find_path_greedy_semirandom_bfs (g : GridGraph) (pick : Nat → Nat)
    (shuf : Nat → List Pos → List Pos) :
    Option (List Pos) × GridGraph :=
  match g.current, g.goal with
  | some s, some t =>
    match searchLoop g t (semirandomSel t pick) (fun x l => l ++ [x]) shuf
        (2 * (allPositions g).card + 2) 0 [s] ∅ [] with
    | (.found p, g2) => (some p, g2)
    | (_, g2) => (none, g2)
  | _, _ => (none, g)

theorem popLast_none (l : List Pos) : popLast l = none ↔ l = [] := by
  rw [popLast]
  cases hl : l.getLast? with
  | none => simp [List.getLast?_eq_none.mp hl]
  | some x =>
    simp only []
    constructor
    · intro h; cases h
    · intro h; subst h; cases hl

theorem popLast_perm (l : List Pos) (x : Pos) (r : List Pos)
    (h : popLast l = some (x, r)) : l.Perm (x :: r) := by
  rw [popLast] at h
  cases hl : l.getLast? with
  | none => rw [hl] at h; cases h
  | some y =>
    rw [hl] at h
    simp only [Option.some.injEq, Prod.mk.injEq] at h
    obtain ⟨rfl, rfl⟩ := h
    have hne : l ≠ [] := by
      intro he; subst he; cases hl
    have hcur : y = l.getLast hne := by
      have := List.getLast?_eq_getLast l hne
      rw [hl] at this
      exact Option.some.inj this
    have hsplit : l.dropLast ++ [y] = l := by
      rw [hcur]; exact List.dropLast_concat_getLast hne
    have hperm := List.perm_append_singleton y l.dropLast
    rw [hsplit] at hperm
    exact hperm

theorem foldl_min_mem (t : Pos) :
    ∀ (xs : List Pos) (x : Pos),
    xs.foldl (fun m p => if pnLtB t p m then p else m) x ∈ x :: xs := by
  intro xs
  induction xs with
  | nil => intro x; exact List.mem_cons_self ..
  | cons y ys ih =>
    intro x
    rw [List.foldl_cons]
    by_cases h : pnLtB t y x
    · rw [if_pos h]
      rcases List.mem_cons.mp (ih y) with h2 | h2
      · rw [h2]
        exact List.mem_cons_of_mem _ (List.mem_cons_self ..)
      · exact List.mem_cons_of_mem _ (List.mem_cons_of_mem _ h2)
    · rw [if_neg h]
      rcases List.mem_cons.mp (ih x) with h2 | h2
      · rw [h2]; exact List.mem_cons_self ..
      · exact List.mem_cons_of_mem _ (List.mem_cons_of_mem _ h2)

theorem popMin_none (t : Pos) (l : List Pos) : popMin t l = none ↔ l = [] := by
  cases l with
  | nil => simp [popMin]
  | cons x xs =>
    simp only [popMin]
    constructor
    · intro h; cases h
    · intro h; cases h

theorem perm_cons_removeFirst (m : Pos) :
    ∀ (l : List Pos), m ∈ l → l.Perm (m :: removeFirst m l) := by
  intro l
  induction l with
  | nil => intro h; cases h
  | cons x xs ih =>
    intro h
    by_cases hx : x = m
    · rw [removeFirst, if_pos hx, hx]
    · rw [removeFirst, if_neg hx]
      have hm : m ∈ xs := by
        rcases List.mem_cons.mp h with h2 | h2
        · exact absurd h2.symm hx
        · exact h2
      exact ((ih hm).cons x).trans (List.Perm.swap m x (removeFirst m xs))

theorem popMin_perm (t : Pos) (l : List Pos) (x : Pos) (r : List Pos)
    (h : popMin t l = some (x, r)) : l.Perm (x :: r) := by
  cases l with
  | nil => cases h
  | cons y ys =>
    simp only [popMin] at h
    obtain ⟨rfl, rfl⟩ := h
    exact perm_cons_removeFirst _ _ (foldl_min_mem t ys y)

theorem perm_get_cons_eraseIdx :
    ∀ (l : List Pos) (i : Nat) (h : i < l.length),
    l.Perm (l.get ⟨i, h⟩ :: l.eraseIdx i) := by
  intro l
  induction l with
  | nil => intro i h; cases h
  | cons x xs ih =>
    intro i h
    cases i with
    | zero => exact List.Perm.refl _
    | succ j =>
      have hj : j < xs.length := by
        simp only [List.length_cons] at h; omega
      have hg : (x :: xs).get ⟨j + 1, h⟩ = xs.get ⟨j, hj⟩ := rfl
      have he : (x :: xs).eraseIdx (j + 1) = x :: xs.eraseIdx j := rfl
      rw [hg, he]
      exact ((ih j hj).cons x).trans
        (List.Perm.swap (xs.get ⟨j, hj⟩) x (xs.eraseIdx j))

theorem popIdx_none (i : Nat) (l : List Pos) (hl : l ≠ []) :
    popIdx (i % l.length) l ≠ none := by
  cases l with
  | nil => exact absurd rfl hl
  | cons x xs =>
    have hlen : 0 < (x :: xs).length := by simp
    have hmod : i % (x :: xs).length < (x :: xs).length := Nat.mod_lt _ hlen
    simp only [popIdx, dif_pos hmod]
    intro h; cases h

theorem popIdx_perm (i : Nat) (l : List Pos) (x : Pos) (r : List Pos)
    (h : popIdx i l = some (x, r)) : l.Perm (x :: r) := by
  cases l with
  | nil => cases h
  | cons y ys =>
    simp only [popIdx] at h
    split_ifs at h with hi
    simp only [Option.some.injEq, Prod.mk.injEq] at h
    obtain ⟨rfl, rfl⟩ := h
    exact perm_get_cons_eraseIdx _ i hi

theorem semirandomSel_none (t : Pos) (pick : Nat → Nat) (n : Nat) (l : List Pos) :
    semirandomSel t pick n l = none ↔ l = [] := by
  rw [semirandomSel]
  split_ifs with h
  · exact popMin_none t l
  · constructor
    · intro h2
      by_contra hne
      exact popIdx_none (pick n) l hne h2
    · intro h2; subst h2; rfl

theorem semirandomSel_perm (t : Pos) (pick : Nat → Nat) (n : Nat) (l : List Pos)
    (x : Pos) (r : List Pos) (h : semirandomSel t pick n l = some (x, r)) :
    l.Perm (x :: r) := by
  rw [semirandomSel] at h
  split_ifs at h with h2
  · exact popMin_perm t l x r h
  · exact popIdx_perm _ l x r h

theorem mem_neighborsRaw (g : GridGraph) (row col : Int) (v : Pos) :
    v ∈ neighborsRaw g row col ↔
      (∃ d ∈ DIRECTIONS, v = (row + d.1, col + d.2)) ∧
      (0 ≤ v.1 ∧ v.1 < (g.height : Int) ∧ 0 ≤ v.2 ∧ v.2 < (g.width : Int)) ∧
      cellStateAt g v.1 v.2 ≠ CellState.INACTIVE := by
  rw [neighborsRaw, List.mem_filter, List.mem_map]
  simp only [Bool.and_eq_true, decide_eq_true_eq]
  constructor
  · rintro ⟨⟨d, hd, rfl⟩, hb, hs⟩
    exact ⟨⟨d, hd, rfl⟩, hb, hs⟩
  · rintro ⟨⟨d, hd, rfl⟩, hb, hs⟩
    exact ⟨⟨d, hd, rfl⟩, hb, hs⟩

theorem neighborsRaw_subset_allPositions (g : GridGraph) (row col : Int) :
    ∀ v ∈ neighborsRaw g row col, v ∈ allPositions g := by
  intro v hv
  obtain ⟨_, ⟨h1, h2, h3, h4⟩, _⟩ := (mem_neighborsRaw g row col v).mp hv
  rw [allPositions, Finset.mem_image]
  refine ⟨(v.1.toNat, v.2.toNat), ?_, ?_⟩
  · rw [Finset.mem_product]
    constructor
    · rw [Finset.mem_range]; omega
    · rw [Finset.mem_range]; omega
  · have e1 : ((v.1.toNat : Int)) = v.1 := Int.toNat_of_nonneg h1
    have e2 : ((v.2.toNat : Int)) = v.2 := Int.toNat_of_nonneg h3
    rw [show ((v.1.toNat, v.2.toNat) : Nat × Nat).1 = v.1.toNat from rfl]
    rw [show ((v.1.toNat, v.2.toNat) : Nat × Nat).2 = v.2.toNat from rfl]
    rw [e1, e2]

theorem pushNeighbors_spec (push : Pos → List Pos → List Pos)
    (hpush : ∀ x l, (push x l).Perm (x :: l)) :
    ∀ (ns frontier : List Pos) (visited : Finset Pos),
    visited ⊆ (pushNeighbors push ns frontier visited).2 ∧
    (pushNeighbors push ns frontier visited).2 ⊆ visited ∪ ns.toFinset ∧
    (∀ v ∈ ns, v ∈ (pushNeighbors push ns frontier visited).2) ∧
    (∀ x ∈ (pushNeighbors push ns frontier visited).1, x ∈ frontier ∨ x ∈ ns) ∧
    (∀ x ∈ frontier, x ∈ (pushNeighbors push ns frontier visited).1) ∧
    (∀ x ∈ (pushNeighbors push ns frontier visited).2, x ∈ visited ∨
      x ∈ (pushNeighbors push ns frontier visited).1) ∧
    (pushNeighbors push ns frontier visited).1.length + visited.card =
      frontier.length + (pushNeighbors push ns frontier visited).2.card := by
  intro ns
  induction ns with
  | nil =>
    intro frontier visited
    exact ⟨Finset.Subset.refl visited, Finset.subset_union_left,
      fun v hv => absurd hv (List.not_mem_nil v),
      fun x hx => Or.inl hx, fun x hx => hx, fun x hx => Or.inl hx, rfl⟩
  | cons v vs ih =>
    intro frontier visited
    by_cases hv : v ∈ visited
    · rw [show pushNeighbors push (v :: vs) frontier visited
          = pushNeighbors push vs frontier visited by rw [pushNeighbors, if_pos hv]]
      obtain ⟨h1, h2, h3, h4, h5, h6, h7⟩ := ih frontier visited
      refine ⟨h1, ?_, ?_, ?_, h5, h6, h7⟩
      · intro x hx
        rcases Finset.mem_union.mp (h2 hx) with h | h
        · exact Finset.mem_union.mpr (Or.inl h)
        · exact Finset.mem_union.mpr (Or.inr (by
            rw [List.mem_toFinset] at h ⊢
            exact List.mem_cons_of_mem _ h))
      · intro w hw
        rcases List.mem_cons.mp hw with h | h
        · exact h ▸ h1 hv
        · exact h3 w h
      · intro x hx
        rcases h4 x hx with h | h
        · exact Or.inl h
        · exact Or.inr (List.mem_cons_of_mem _ h)
    · rw [show pushNeighbors push (v :: vs) frontier visited
          = pushNeighbors push vs (push v frontier) (insert v visited) by
        rw [pushNeighbors, if_neg hv]]
      obtain ⟨h1, h2, h3, h4, h5, h6, h7⟩ := ih (push v frontier) (insert v visited)
      have hpv := hpush v frontier
      refine ⟨?_, ?_, ?_, ?_, ?_, ?_, ?_⟩
      · intro w hw
        exact h1 (Finset.mem_insert.mpr (Or.inr hw))
      · intro x hx
        rcases Finset.mem_union.mp (h2 hx) with h | h
        · rcases Finset.mem_insert.mp h with h2b | h2b
          · exact Finset.mem_union.mpr (Or.inr (by
              rw [List.mem_toFinset]
              exact h2b ▸ List.mem_cons_self ..))
          · exact Finset.mem_union.mpr (Or.inl h2b)
        · exact Finset.mem_union.mpr (Or.inr (by
            rw [List.mem_toFinset] at h ⊢
            exact List.mem_cons_of_mem _ h))
      · intro w hw
        rcases List.mem_cons.mp hw with h | h
        · exact h ▸ h1 (Finset.mem_insert_self ..)
        · exact h3 w h
      · intro x hx
        rcases h4 x hx with h | h
        · rcases List.mem_cons.mp (hpv.mem_iff.mp h) with h2b | h2b
          · exact Or.inr (h2b ▸ List.mem_cons_self ..)
          · exact Or.inl h2b
        · exact Or.inr (List.mem_cons_of_mem _ h)
      · intro x hx
        exact h5 x (hpv.mem_iff.mpr (List.mem_cons_of_mem _ hx))
      · intro x hx
        rcases h6 x hx with h | h
        · rcases Finset.mem_insert.mp h with h2b | h2b
          · exact Or.inr (h5 x (hpv.mem_iff.mpr (h2b ▸ List.mem_cons_self ..)))
          · exact Or.inl h2b
        · exact Or.inr h
      · have hlen : (push v frontier).length = frontier.length + 1 := by
          rw [hpv.length_eq]; rfl
        have hcard : (insert v visited).card = visited.card + 1 :=
          Finset.card_insert_of_not_mem hv
        omega

/-- Correctness of the common search skeleton, for every frontier
discipline that removes an arbitrary element of the frontier multiset
and every neighbour shuffle: the run either finds a visit order
starting at the start node and ending at the goal that embeds a
start-to-goal walk through its own cells, or reports no-path exactly
when the goal is unreachable through non-INACTIVE cells; fuel is never
exhausted. -/
theorem searchLoop_spec (g : GridGraph) (s goal : Pos)
    (sel : Nat → List Pos → Option (Pos × List Pos))
    (push : Pos → List Pos → List Pos)
    (shuf : Nat → List Pos → List Pos)
    (hselN : ∀ n l, sel n l = none ↔ l = [])
    (hselP : ∀ n l x r, sel n l = some (x, r) → l.Perm (x :: r))
    (hpush : ∀ x l, (push x l).Perm (x :: l))
    (hshuf : ∀ n l, (shuf n l).Perm l) :
    ∀ (fuel n : Nat) (frontier : List Pos) (visited : Finset Pos) (path : List Pos),
    frontier.length + 2 * ((allPositions g).card - visited.card) < fuel →
    visited ⊆ allPositions g →
    (∀ x ∈ frontier, x ∈ insert s visited) →
    (∀ u ∈ insert s visited, u ∈ frontier ∨
      ∀ v ∈ neighborsRaw g u.1 u.2, v ∈ insert s visited) →
    (goal ∈ insert s visited → goal ∈ frontier) →
    (∀ x ∈ frontier, x = s ∨ ∃ u ∈ path, x ∈ neighborsRaw g u.1 u.2) →
    (∀ x ∈ path, Relation.ReflTransGen (adjStepIn g path) s x) →
    (∀ x ∈ path, x = s ∨ ∃ u : Pos, x ∈ neighborsRaw g u.1 u.2) →
    ((path = [] ∧ frontier = [s]) ∨ path.head? = some s) →
    (∃ p, (searchLoop g goal sel push shuf fuel n frontier visited path).1 = .found p ∧
        p.head? = some s ∧ p.getLast? = some goal ∧
        Relation.ReflTransGen (adjStepIn g p) s goal ∧
        (∀ q ∈ p, q = s ∨ ∃ u : Pos, q ∈ neighborsRaw g u.1 u.2))
    ∨ ((searchLoop g goal sel push shuf fuel n frontier visited path).1 = .nopath ∧
        ¬ ReachesFrom g s goal) := by
  intro fuel
  induction fuel with
  | zero => intro n frontier visited path hfuel; omega
  | succ fuel ih =>
    intro n frontier visited path hfuel hvSub hff hproc hgoalM hfpar hpchain hpnb hhead
    cases hsel : sel n frontier with
    | none =>
      have hfr : frontier = [] := (hselN n frontier).mp hsel
      subst hfr
      refine Or.inr ⟨by rw [searchLoop, hsel], ?_⟩
      intro hreach
      have hclosed : ∀ v, ReachesFrom g s v → v ∈ insert s visited := by
        intro v hv
        induction hv with
        | refl => exact Finset.mem_insert_self ..
        | tail _ hbc ihv =>
          rcases hproc _ ihv with h | h
          · cases h
          · exact h _ hbc
      exact absurd (hgoalM (hclosed goal hreach)) (List.not_mem_nil goal)
    | some cr =>
      obtain ⟨current, rest⟩ := cr
      have hperm := hselP n frontier current rest hsel
      have hcurF : current ∈ frontier :=
        hperm.mem_iff.mpr (List.mem_cons_self ..)
      by_cases hcur : current = goal
      · subst hcur
        refine Or.inl ⟨path ++ [current], ?_, ?_, List.getLast?_concat path, ?_, ?_⟩
        · simp [searchLoop, hsel]
        · rcases hhead with ⟨hp, hf⟩ | hp
          · subst hp
            have : current = s := by
              have := hperm.mem_iff.mpr (List.mem_cons_self ..)
              rw [hf] at this
              simpa using this
            rw [List.nil_append, this]
            rfl
          · rw [List.head?_append, hp]
            rfl
        · rcases hfpar current hcurF with h | ⟨u, hu, hadj⟩
          · rw [← h]
          · refine Relation.ReflTransGen.tail ?_
              ⟨hadj, List.mem_append.mpr (Or.inr (List.mem_singleton.mpr rfl))⟩
            exact (hpchain u hu).mono (fun a b hab =>
              ⟨hab.1, List.mem_append.mpr (Or.inl hab.2)⟩)
        · intro q hq
          rcases List.mem_append.mp hq with h | h
          · exact hpnb q h
          · have : q = current := by simpa using h
            subst this
            rcases hfpar q hcurF with h2 | ⟨u, _, hadj⟩
            · exact Or.inl h2
            · exact Or.inr ⟨u, hadj⟩
      · have hrun : searchLoop g goal sel push shuf (fuel + 1) n frontier visited path
            = searchLoop g goal sel push shuf fuel (n + 1)
              (pushNeighbors push (shuf n (neighborsRaw g current.1 current.2))
                rest visited).1
              (pushNeighbors push (shuf n (neighborsRaw g current.1 current.2))
                rest visited).2
              (path ++ [current]) := by
          simp only [searchLoop, hsel]
          rw [if_neg hcur]
        rw [hrun]
        obtain ⟨hv1, hv2, hv3, hf4, hf5, hv6, hlen7⟩ :=
          pushNeighbors_spec push hpush
            (shuf n (neighborsRaw g current.1 current.2)) rest visited
        have hnsperm := hshuf n (neighborsRaw g current.1 current.2)
        have hnsAll : ∀ v ∈ shuf n (neighborsRaw g current.1 current.2),
            v ∈ allPositions g := fun v hv =>
          neighborsRaw_subset_allPositions g current.1 current.2 v (hnsperm.mem_iff.mp hv)
        have hv2All : (pushNeighbors push (shuf n (neighborsRaw g current.1 current.2))
            rest visited).2 ⊆ allPositions g := by
          intro x hx
          rcases Finset.mem_union.mp (hv2 hx) with h | h
          · exact hvSub h
          · exact hnsAll x (List.mem_toFinset.mp h)
        have hMsub : insert s visited ⊆
            insert s (pushNeighbors push (shuf n (neighborsRaw g current.1 current.2))
              rest visited).2 := by
          intro x hx
          rcases Finset.mem_insert.mp hx with h | h
          · exact h ▸ Finset.mem_insert_self ..
          · exact Finset.mem_insert.mpr (Or.inr (hv1 h))
        have hrestF : ∀ x ∈ rest, x ∈ frontier := fun x hx =>
          hperm.mem_iff.mpr (List.mem_cons_of_mem _ hx)
        have hMcase : ∀ u ∈ insert s visited,
            u ∈ (pushNeighbors push (shuf n (neighborsRaw g current.1 current.2))
              rest visited).1 ∨
            ∀ v ∈ neighborsRaw g u.1 u.2,
              v ∈ insert s (pushNeighbors push
                (shuf n (neighborsRaw g current.1 current.2)) rest visited).2 := by
          intro u hu
          rcases hproc u hu with h | h
          · rcases List.mem_cons.mp (hperm.mem_iff.mp h) with h2 | h2
            · refine Or.inr ?_
              intro v hv
              rw [h2] at hv
              exact Finset.mem_insert.mpr (Or.inr (hv3 v (hnsperm.mem_iff.mpr hv)))
            · exact Or.inl (hf5 u h2)
          · exact Or.inr (fun v hv => hMsub (h v hv))
        refine ih (n + 1) _ _ (path ++ [current]) ?_ hv2All ?_ ?_ ?_ ?_ ?_ ?_ ?_
        · have hfl : frontier.length = rest.length + 1 := by
            rw [hperm.length_eq]; rfl
          have hc1 : visited.card ≤ (pushNeighbors push
              (shuf n (neighborsRaw g current.1 current.2)) rest visited).2.card :=
            Finset.card_le_card hv1
          have hc2 : (pushNeighbors push
              (shuf n (neighborsRaw g current.1 current.2)) rest visited).2.card
              ≤ (allPositions g).card :=
            Finset.card_le_card hv2All
          omega
        · intro x hx
          rcases hf4 x hx with h | h
          · exact hMsub (hff x (hrestF x h))
          · exact Finset.mem_insert.mpr (Or.inr (hv3 x h))
        · intro u hu
          rcases Finset.mem_insert.mp hu with h | h
          · exact hMcase u (h ▸ Finset.mem_insert_self ..)
          · rcases hv6 u h with h2 | h2
            · exact hMcase u (Finset.mem_insert.mpr (Or.inr h2))
            · exact Or.inl h2
        · intro hgM
          rcases Finset.mem_insert.mp hgM with h | h
          · have hgF := hgoalM (h ▸ Finset.mem_insert_self ..)
            rcases List.mem_cons.mp (hperm.mem_iff.mp hgF) with h2 | h2
            · exact absurd h2.symm hcur
            · exact hf5 goal h2
          · rcases hv6 goal h with h2 | h2
            · have hgF := hgoalM (Finset.mem_insert.mpr (Or.inr h2))
              rcases List.mem_cons.mp (hperm.mem_iff.mp hgF) with h3 | h3
              · exact absurd h3.symm hcur
              · exact hf5 goal h3
            · exact h2
        · intro x hx
          rcases hf4 x hx with h | h
          · rcases hfpar x (hrestF x h) with h2 | ⟨u, hu, hadj⟩
            · exact Or.inl h2
            · exact Or.inr ⟨u, List.mem_append.mpr (Or.inl hu), hadj⟩
          · exact Or.inr ⟨current,
              List.mem_append.mpr (Or.inr (List.mem_singleton.mpr rfl)),
              hnsperm.mem_iff.mp h⟩
        · intro x hx
          rcases List.mem_append.mp hx with h | h
          · exact (hpchain x h).mono (fun a b hab =>
              ⟨hab.1, List.mem_append.mpr (Or.inl hab.2)⟩)
          · have hxc : x = current := by simpa using h
            subst hxc
            rcases hfpar x hcurF with h2 | ⟨u, hu, hadj⟩
            · rw [← h2]
            · refine Relation.ReflTransGen.tail ?_
                ⟨hadj, List.mem_append.mpr (Or.inr (List.mem_singleton.mpr rfl))⟩
              exact (hpchain u hu).mono (fun a b hab =>
                ⟨hab.1, List.mem_append.mpr (Or.inl hab.2)⟩)
        · intro x hx
          rcases List.mem_append.mp hx with h | h
          · exact hpnb x h
          · have hxc : x = current := by simpa using h
            subst hxc
            rcases hfpar x hcurF with h2 | ⟨u, _, hadj⟩
            · exact Or.inl h2
            · exact Or.inr ⟨u, hadj⟩
        · refine Or.inr ?_
          rcases hhead with ⟨hp, hf⟩ | hp
          · subst hp
            have hcs : current = s := by
              have := hcurF
              rw [hf] at this
              simpa using this
            rw [List.nil_append, hcs]
            rfl
          · rw [List.head?_append, hp]
            rfl

theorem searchLoop_snd (g : GridGraph) (goal : Pos)
    (sel : Nat → List Pos → Option (Pos × List Pos))
    (push : Pos → List Pos → List Pos)
    (shuf : Nat → List Pos → List Pos) :
    ∀ (fuel n : Nat) (frontier : List Pos) (visited : Finset Pos) (path : List Pos),
    (searchLoop g goal sel push shuf fuel n frontier visited path).2 = g := by
  intro fuel
  induction fuel with
  | zero => intro n frontier visited path; rfl
  | succ fuel ih =>
    intro n frontier visited path
    cases hsel : sel n frontier with
    | none => simp [searchLoop, hsel]
    | some cr =>
      obtain ⟨x, r⟩ := cr
      by_cases h : x = goal
      · simp [searchLoop, hsel, h]
      · simp only [searchLoop, hsel]
        rw [if_neg h]
        exact ih ..

theorem find_path_bfs_snd (g : GridGraph) (shuf : Nat → List Pos → List Pos) :
    (find_path_bfs g shuf).2 = g := by
  cases hc : g.current with
  | none => simp [find_path_bfs, hc]
  | some s =>
    cases hg : g.goal with
    | none => simp [find_path_bfs, hc, hg]
    | some t =>
      have hsnd := searchLoop_snd g t (fun _ l => popLast l) (fun x l => x :: l) shuf
        (2 * (allPositions g).card + 2) 0 [s] ∅ []
      rcases hrun : searchLoop g t (fun _ l => popLast l) (fun x l => x :: l) shuf
        (2 * (allPositions g).card + 2) 0 [s] ∅ [] with ⟨o, g2⟩
      rw [hrun] at hsnd
      cases o <;> simpa [find_path_bfs, hc, hg, hrun] using hsnd

theorem find_path_dfs_snd (g : GridGraph) (shuf : Nat → List Pos → List Pos) :
    (find_path_dfs g shuf).2 = g := by
  cases hc : g.current with
  | none => simp [find_path_dfs, hc]
  | some s =>
    cases hg : g.goal with
    | none => simp [find_path_dfs, hc, hg]
    | some t =>
      have hsnd := searchLoop_snd g t (fun _ l => popLast l) (fun x l => l ++ [x]) shuf
        (2 * (allPositions g).card + 2) 0 [s] ∅ []
      rcases hrun : searchLoop g t (fun _ l => popLast l) (fun x l => l ++ [x]) shuf
        (2 * (allPositions g).card + 2) 0 [s] ∅ [] with ⟨o, g2⟩
      rw [hrun] at hsnd
      cases o <;> simpa [find_path_dfs, hc, hg, hrun] using hsnd

theorem find_path_greedy_bfs_snd (g : GridGraph) (shuf : Nat → List Pos → List Pos) :
    (find_path_greedy_bfs g shuf).2 = g := by
  cases hc : g.current with
  | none => simp [find_path_greedy_bfs, hc]
  | some s =>
    cases hg : g.goal with
    | none => simp [find_path_greedy_bfs, hc, hg]
    | some t =>
      have hsnd := searchLoop_snd g t (fun _ l => popMin t l) (fun x l => l ++ [x]) shuf
        (2 * (allPositions g).card + 2) 0 [s] ∅ []
      rcases hrun : searchLoop g t (fun _ l => popMin t l) (fun x l => l ++ [x]) shuf
        (2 * (allPositions g).card + 2) 0 [s] ∅ [] with ⟨o, g2⟩
      rw [hrun] at hsnd
      cases o <;> simpa [find_path_greedy_bfs, hc, hg, hrun] using hsnd

theorem find_path_greedy_semirandom_bfs_snd (g : GridGraph) (pick : Nat → Nat)
    (shuf : Nat → List Pos → List Pos) :
    (find_path_greedy_semirandom_bfs g pick shuf).2 = g := by
  cases hc : g.current with
  | none => simp [find_path_greedy_semirandom_bfs, hc]
  | some s =>
    cases hg : g.goal with
    | none => simp [find_path_greedy_semirandom_bfs, hc, hg]
    | some t =>
      have hsnd := searchLoop_snd g t (semirandomSel t pick) (fun x l => l ++ [x]) shuf
        (2 * (allPositions g).card + 2) 0 [s] ∅ []
      rcases hrun : searchLoop g t (semirandomSel t pick) (fun x l => l ++ [x]) shuf
        (2 * (allPositions g).card + 2) 0 [s] ∅ [] with ⟨o, g2⟩
      rw [hrun] at hsnd
      cases o <;> simpa [find_path_greedy_semirandom_bfs, hc, hg, hrun] using hsnd

/-- C6: none of the four search operations mutates the grid: the grid
carried out of find_path_bfs, find_path_dfs, find_path_greedy_bfs and
find_path_greedy_semirandom_bfs is exactly the input grid, for every
grid and every outcome of the randomness oracles, so every cell's
state and prev_state and the current and goal markers are unchanged by
a search. -/
theorem searches_do_not_mutate (g : GridGraph)
    (shuf : Nat → List Pos → List Pos) (pick : Nat → Nat) :
    (find_path_bfs g shuf).2 = g ∧ (find_path_dfs g shuf).2 = g ∧
    (find_path_greedy_bfs g shuf).2 = g ∧
    (find_path_greedy_semirandom_bfs g pick shuf).2 = g :=
  ⟨find_path_bfs_snd g shuf, find_path_dfs_snd g shuf,
   find_path_greedy_bfs_snd g shuf, find_path_greedy_semirandom_bfs_snd g pick shuf⟩

theorem searchRun_spec (g : GridGraph) (s t : Pos)
    (sel : Nat → List Pos → Option (Pos × List Pos))
    (push : Pos → List Pos → List Pos)
    (shuf : Nat → List Pos → List Pos)
    (hselN : ∀ n l, sel n l = none ↔ l = [])
    (hselP : ∀ n l x r, sel n l = some (x, r) → l.Perm (x :: r))
    (hpush : ∀ x l, (push x l).Perm (x :: l))
    (hshuf : ∀ n l, (shuf n l).Perm l) :
    (∃ p, (searchLoop g t sel push shuf (2 * (allPositions g).card + 2) 0 [s] ∅ []).1
          = .found p ∧
        p.head? = some s ∧ p.getLast? = some t ∧
        Relation.ReflTransGen (adjStepIn g p) s t ∧
        (∀ q ∈ p, q = s ∨ ∃ u : Pos, q ∈ neighborsRaw g u.1 u.2))
    ∨ ((searchLoop g t sel push shuf (2 * (allPositions g).card + 2) 0 [s] ∅ []).1
          = .nopath ∧ ¬ ReachesFrom g s t) := by
  refine searchLoop_spec g s t sel push shuf hselN hselP hpush hshuf
    (2 * (allPositions g).card + 2) 0 [s] ∅ [] ?_ ?_ ?_ ?_ ?_ ?_ ?_ ?_ ?_
  · simp only [List.length_singleton, Finset.card_empty, Nat.sub_zero]
    omega
  · exact Finset.empty_subset _
  · intro x hx
    rw [List.mem_singleton] at hx
    subst hx
    exact Finset.mem_insert_self ..
  · intro u hu
    have hus : u = s := by simpa using hu
    subst hus
    exact Or.inl (List.mem_singleton.mpr rfl)
  · intro h
    have hts : t = s := by simpa using h
    subst hts
    exact List.mem_singleton.mpr rfl
  · intro x hx
    exact Or.inl (by simpa using hx)
  · intro x hx
    cases hx
  · intro x hx
    cases hx
  · exact Or.inl ⟨rfl, rfl⟩

theorem find_path_bfs_spec (g : GridGraph) (s t : Pos)
    (hcur : g.current = some s) (hgoal : g.goal = some t)
    (shuf : Nat → List Pos → List Pos) (hshuf : ∀ n l, (shuf n l).Perm l) :
    (∃ p, (find_path_bfs g shuf).1 = some p ∧ p.head? = some s ∧
        p.getLast? = some t ∧ Relation.ReflTransGen (adjStepIn g p) s t ∧
        (∀ q ∈ p, q = s ∨ ∃ u : Pos, q ∈ neighborsRaw g u.1 u.2)) ∨
    ((find_path_bfs g shuf).1 = none ∧ ¬ ReachesFrom g s t) := by
  have hspec := searchRun_spec g s t (fun _ l => popLast l) (fun x l => x :: l) shuf
    (fun _ l => popLast_none l) (fun _ l x r h => popLast_perm l x r h)
    (fun x l => List.Perm.refl _) hshuf
  rcases hrun : searchLoop g t (fun _ l => popLast l) (fun x l => x :: l) shuf
    (2 * (allPositions g).card + 2) 0 [s] ∅ [] with ⟨o, g2⟩
  rw [hrun] at hspec
  rcases hspec with ⟨p, hfound, hh, hl, hchain, hnb⟩ | ⟨hno, hnr⟩
  · have ho : o = .found p := hfound
    subst ho
    refine Or.inl ⟨p, ?_, hh, hl, hchain, hnb⟩
    simp [find_path_bfs, hcur, hgoal, hrun]
  · have ho : o = .nopath := hno
    subst ho
    refine Or.inr ⟨?_, hnr⟩
    simp [find_path_bfs, hcur, hgoal, hrun]

theorem find_path_dfs_spec (g : GridGraph) (s t : Pos)
    (hcur : g.current = some s) (hgoal : g.goal = some t)
    (shuf : Nat → List Pos → List Pos) (hshuf : ∀ n l, (shuf n l).Perm l) :
    (∃ p, (find_path_dfs g shuf).1 = some p ∧ p.head? = some s ∧
        p.getLast? = some t ∧ Relation.ReflTransGen (adjStepIn g p) s t ∧
        (∀ q ∈ p, q = s ∨ ∃ u : Pos, q ∈ neighborsRaw g u.1 u.2)) ∨
    ((find_path_dfs g shuf).1 = none ∧ ¬ ReachesFrom g s t) := by
  have hspec := searchRun_spec g s t (fun _ l => popLast l) (fun x l => l ++ [x]) shuf
    (fun _ l => popLast_none l) (fun _ l x r h => popLast_perm l x r h)
    (fun x l => List.perm_append_singleton x l) hshuf
  rcases hrun : searchLoop g t (fun _ l => popLast l) (fun x l => l ++ [x]) shuf
    (2 * (allPositions g).card + 2) 0 [s] ∅ [] with ⟨o, g2⟩
  rw [hrun] at hspec
  rcases hspec with ⟨p, hfound, hh, hl, hchain, hnb⟩ | ⟨hno, hnr⟩
  · have ho : o = .found p := hfound
    subst ho
    refine Or.inl ⟨p, ?_, hh, hl, hchain, hnb⟩
    simp [find_path_dfs, hcur, hgoal, hrun]
  · have ho : o = .nopath := hno
    subst ho
    refine Or.inr ⟨?_, hnr⟩
    simp [find_path_dfs, hcur, hgoal, hrun]

theorem find_path_greedy_bfs_spec (g : GridGraph) (s t : Pos)
    (hcur : g.current = some s) (hgoal : g.goal = some t)
    (shuf : Nat → List Pos → List Pos) (hshuf : ∀ n l, (shuf n l).Perm l) :
    (∃ p, (find_path_greedy_bfs g shuf).1 = some p ∧ p.head? = some s ∧
        p.getLast? = some t ∧ Relation.ReflTransGen (adjStepIn g p) s t ∧
        (∀ q ∈ p, q = s ∨ ∃ u : Pos, q ∈ neighborsRaw g u.1 u.2)) ∨
    ((find_path_greedy_bfs g shuf).1 = none ∧ ¬ ReachesFrom g s t) := by
  have hspec := searchRun_spec g s t (fun _ l => popMin t l) (fun x l => l ++ [x]) shuf
    (fun _ l => popMin_none t l) (fun _ l x r h => popMin_perm t l x r h)
    (fun x l => List.perm_append_singleton x l) hshuf
  rcases hrun : searchLoop g t (fun _ l => popMin t l) (fun x l => l ++ [x]) shuf
    (2 * (allPositions g).card + 2) 0 [s] ∅ [] with ⟨o, g2⟩
  rw [hrun] at hspec
  rcases hspec with ⟨p, hfound, hh, hl, hchain, hnb⟩ | ⟨hno, hnr⟩
  · have ho : o = .found p := hfound
    subst ho
    refine Or.inl ⟨p, ?_, hh, hl, hchain, hnb⟩
    simp [find_path_greedy_bfs, hcur, hgoal, hrun]
  · have ho : o = .nopath := hno
    subst ho
    refine Or.inr ⟨?_, hnr⟩
    simp [find_path_greedy_bfs, hcur, hgoal, hrun]

theorem find_path_greedy_semirandom_bfs_spec (g : GridGraph) (s t : Pos)
    (hcur : g.current = some s) (hgoal : g.goal = some t)
    (pick : Nat → Nat) (shuf : Nat → List Pos → List Pos)
    (hshuf : ∀ n l, (shuf n l).Perm l) :
    (∃ p, (find_path_greedy_semirandom_bfs g pick shuf).1 = some p ∧
        p.head? = some s ∧ p.getLast? = some t ∧
        Relation.ReflTransGen (adjStepIn g p) s t ∧
        (∀ q ∈ p, q = s ∨ ∃ u : Pos, q ∈ neighborsRaw g u.1 u.2)) ∨
    ((find_path_greedy_semirandom_bfs g pick shuf).1 = none ∧
      ¬ ReachesFrom g s t) := by
  have hspec := searchRun_spec g s t (semirandomSel t pick) (fun x l => l ++ [x]) shuf
    (fun n l => semirandomSel_none t pick n l)
    (fun n l x r h => semirandomSel_perm t pick n l x r h)
    (fun x l => List.perm_append_singleton x l) hshuf
  rcases hrun : searchLoop g t (semirandomSel t pick) (fun x l => l ++ [x]) shuf
    (2 * (allPositions g).card + 2) 0 [s] ∅ [] with ⟨o, g2⟩
  rw [hrun] at hspec
  rcases hspec with ⟨p, hfound, hh, hl, hchain, hnb⟩ | ⟨hno, hnr⟩
  · have ho : o = .found p := hfound
    subst ho
    refine Or.inl ⟨p, ?_, hh, hl, hchain, hnb⟩
    simp [find_path_greedy_semirandom_bfs, hcur, hgoal, hrun]
  · have ho : o = .nopath := hno
    subst ho
    refine Or.inr ⟨?_, hnr⟩
    simp [find_path_greedy_semirandom_bfs, hcur, hgoal, hrun]

theorem resultClauses (g : GridGraph) (s t : Pos) (res : Option (List Pos))
    (hspec : (∃ p, res = some p ∧ p.head? = some s ∧ p.getLast? = some t ∧
        Relation.ReflTransGen (adjStepIn g p) s t ∧
        (∀ q ∈ p, q = s ∨ ∃ u : Pos, q ∈ neighborsRaw g u.1 u.2)) ∨
      (res = none ∧ ¬ ReachesFrom g s t)) :
    (ReachesFrom g s t →
      ∃ p, res = some p ∧ p.head? = some s ∧ p.getLast? = some t) ∧
    (res = none ↔ ¬ ReachesFrom g s t) := by
  rcases hspec with ⟨p, hres, hh, hl, hchain, _⟩ | ⟨hres, hnr⟩
  · have hreach : ReachesFrom g s t :=
      Relation.ReflTransGen.mono (fun a b hab => hab.1) hchain
    refine ⟨fun _ => ⟨p, hres, hh, hl⟩, ?_, fun h => absurd hreach h⟩
    intro h
    rw [h] at hres
    cases hres
  · exact ⟨fun h => absurd h hnr, fun _ => hnr, fun _ => hres⟩

/-- C1: for every grid with current and goal markers set and every
outcome of the randomness oracles, each of the four searches returns a
visit order whose first element is the current position and whose last
element is the goal position whenever the goal is reachable through
non-INACTIVE cells, and returns None exactly when the frontier empties
with the goal unreachable. -/
theorem find_path_endpoints (g : GridGraph) (s t : Pos)
    (hcur : g.current = some s) (hgoal : g.goal = some t)
    (shuf : Nat → List Pos → List Pos) (pick : Nat → Nat)
    (hshuf : ∀ n l, (shuf n l).Perm l) :
    ((ReachesFrom g s t → ∃ p, (find_path_bfs g shuf).1 = some p ∧
        p.head? = some s ∧ p.getLast? = some t) ∧
      ((find_path_bfs g shuf).1 = none ↔ ¬ ReachesFrom g s t)) ∧
    ((ReachesFrom g s t → ∃ p, (find_path_dfs g shuf).1 = some p ∧
        p.head? = some s ∧ p.getLast? = some t) ∧
      ((find_path_dfs g shuf).1 = none ↔ ¬ ReachesFrom g s t)) ∧
    ((ReachesFrom g s t → ∃ p, (find_path_greedy_bfs g shuf).1 = some p ∧
        p.head? = some s ∧ p.getLast? = some t) ∧
      ((find_path_greedy_bfs g shuf).1 = none ↔ ¬ ReachesFrom g s t)) ∧
    ((ReachesFrom g s t →
        ∃ p, (find_path_greedy_semirandom_bfs g pick shuf).1 = some p ∧
          p.head? = some s ∧ p.getLast? = some t) ∧
      ((find_path_greedy_semirandom_bfs g pick shuf).1 = none ↔
        ¬ ReachesFrom g s t)) :=
  ⟨resultClauses g s t _ (find_path_bfs_spec g s t hcur hgoal shuf hshuf),
   resultClauses g s t _ (find_path_dfs_spec g s t hcur hgoal shuf hshuf),
   resultClauses g s t _ (find_path_greedy_bfs_spec g s t hcur hgoal shuf hshuf),
   resultClauses g s t _
     (find_path_greedy_semirandom_bfs_spec g s t hcur hgoal pick shuf hshuf)⟩

/-- A concrete 1-row, 2-column grid (current at (0,0), goal at (0,1),
both cells passable) on which the searches find the goal. -/
def gSearch : GridGraph :=
  { cells := [[⟨.CURRENT, some .ACTIVE⟩], [⟨.GOAL, some .ACTIVE⟩]]
    width := 2, height := 1, current := some (0, 0), goal := some (0, 1) }

/-- C1 witness: the endpoint specification applied to the concrete
1 by 2 grid with identity randomness oracles; every hypothesis is
discharged by evaluation. -/
theorem find_path_endpoints_witness :
    ((ReachesFrom gSearch (0, 0) (0, 1) →
        ∃ p, (find_path_bfs gSearch (fun _ l => l)).1 = some p ∧
          p.head? = some (0, 0) ∧ p.getLast? = some (0, 1)) ∧
      ((find_path_bfs gSearch (fun _ l => l)).1 = none ↔
        ¬ ReachesFrom gSearch (0, 0) (0, 1))) ∧
    ((ReachesFrom gSearch (0, 0) (0, 1) →
        ∃ p, (find_path_dfs gSearch (fun _ l => l)).1 = some p ∧
          p.head? = some (0, 0) ∧ p.getLast? = some (0, 1)) ∧
      ((find_path_dfs gSearch (fun _ l => l)).1 = none ↔
        ¬ ReachesFrom gSearch (0, 0) (0, 1))) ∧
    ((ReachesFrom gSearch (0, 0) (0, 1) →
        ∃ p, (find_path_greedy_bfs gSearch (fun _ l => l)).1 = some p ∧
          p.head? = some (0, 0) ∧ p.getLast? = some (0, 1)) ∧
      ((find_path_greedy_bfs gSearch (fun _ l => l)).1 = none ↔
        ¬ ReachesFrom gSearch (0, 0) (0, 1))) ∧
    ((ReachesFrom gSearch (0, 0) (0, 1) →
        ∃ p, (find_path_greedy_semirandom_bfs gSearch (fun _ => 0)
            (fun _ l => l)).1 = some p ∧
          p.head? = some (0, 0) ∧ p.getLast? = some (0, 1)) ∧
      ((find_path_greedy_semirandom_bfs gSearch (fun _ => 0)
          (fun _ l => l)).1 = none ↔
        ¬ ReachesFrom gSearch (0, 0) (0, 1))) :=
  find_path_endpoints gSearch (0, 0) (0, 1) rfl rfl (fun _ l => l) (fun _ => 0)
    (fun _ l => List.Perm.refl l)

/-- The (row, col) coordinates enumerated by the comprehension of
add_n_inactives: i over range(height), j over range(width). -/
def gridCoords (g : GridGraph) : List Pos :=
  (List.range g.height).flatMap (fun (i : Nat) =>
    (List.range g.width).map (fun (j : Nat) => ((i : Int), (j : Int))))

/-- The all_possibe list of add_n_inactives: grid coordinates not on
the witness path whose cell state is none of CURRENT, GOAL,
INACTIVE. -/
def allPossible (g : GridGraph) (path : List Pos) : List Pos :=
  (gridCoords g).filter (fun p =>
    decide (p ∉ path) &&
    decide (cellStateAt g p.1 p.2 ≠ CellState.CURRENT) &&
    decide (cellStateAt g p.1 p.2 ≠ CellState.GOAL) &&
    decide (cellStateAt g p.1 p.2 ≠ CellState.INACTIVE))

/-- The final loop of add_n_inactives: mark each sampled coordinate
INACTIVE through `self.at(i, j).change_state`; an IndexError leaves
the grid as mutated so far. -/
def markLoop : List Pos → GridGraph → Except (PyErr × GridGraph) GridGraph
  | [], g => .ok g
  | q :: qs, g =>
    match g.modifyCell q.1 q.2 (fun c => c.change_state .INACTIVE) with
    | .ok g2 => markLoop qs g2
    | .error e => .error (e, g)

/-- GridGraph.add_n_inactives: runs the hybrid search (when it returns
None, Python raises a TypeError iterating None in set(...), before any
mutation), lists the coordinates off the witness path whose state is
not CURRENT, GOAL or INACTIVE, clamps n to that list's length, samples
n of them (`sampler` stands for random.sample) and marks each sampled
cell INACTIVE. Errors carry the grid state at the raise. -/
def add_n_inactives (g : GridGraph) (n : Nat) (pick : Nat → Nat)
    (shuf : Nat → List Pos → List Pos) (sampler : List Pos → Nat → List Pos) :
    Except (PyErr × GridGraph) GridGraph :=
  match find_path_greedy_semirandom_bfs g pick shuf with
  | (none, g1) => .error (.typeError, g1)
  | (some p, g1) =>
    let poss := allPossible g1 p
    let k := if n > poss.length then poss.length else n
    markLoop (sampler poss k) g1

theorem getD_as_get? {α : Type} (d : α) :
    ∀ (l : List α) (n : Nat), l.getD n d = (l.get? n).getD d := by
  intro l
  induction l with
  | nil => intro n; cases n <;> rfl
  | cons x xs ih =>
    intro n
    cases n with
    | zero => rfl
    | succ m => exact ih m

theorem mem_allPositions (g : GridGraph) (q : Pos) :
    q ∈ allPositions g ↔
      0 ≤ q.1 ∧ q.1 < (g.height : Int) ∧ 0 ≤ q.2 ∧ q.2 < (g.width : Int) := by
  constructor
  · intro hmem
    obtain ⟨ij, hij, heq⟩ := Finset.mem_image.mp hmem
    rw [Finset.mem_product, Finset.mem_range, Finset.mem_range] at hij
    subst heq
    refine ⟨Int.natCast_nonneg _, ?_, Int.natCast_nonneg _, ?_⟩
    · show (ij.1 : Int) < (g.height : Int)
      exact_mod_cast hij.1
    · show (ij.2 : Int) < (g.width : Int)
      exact_mod_cast hij.2
  · rintro ⟨h1, h2, h3, h4⟩
    refine Finset.mem_image.mpr ⟨(q.1.toNat, q.2.toNat), ?_, ?_⟩
    · rw [Finset.mem_product]
      refine ⟨?_, ?_⟩
      · show q.1.toNat ∈ Finset.range g.height
        rw [Finset.mem_range]; omega
      · show q.2.toNat ∈ Finset.range g.width
        rw [Finset.mem_range]; omega
    · obtain ⟨a, b⟩ := q
      simp only [Prod.mk.injEq]
      refine ⟨?_, ?_⟩
      · show (a.toNat : Int) = a
        omega
      · show (b.toNat : Int) = b
        omega

theorem mem_gridCoords (g : GridGraph) (q : Pos) :
    q ∈ gridCoords g ↔
      0 ≤ q.1 ∧ q.1 < (g.height : Int) ∧ 0 ≤ q.2 ∧ q.2 < (g.width : Int) := by
  constructor
  · intro hmem
    obtain ⟨i, hi, hmem2⟩ := List.mem_flatMap.mp hmem
    obtain ⟨j, hj, heq⟩ := List.mem_map.mp hmem2
    rw [List.mem_range] at hi hj
    subst heq
    refine ⟨Int.natCast_nonneg i, ?_, Int.natCast_nonneg j, ?_⟩
    · show (i : Int) < (g.height : Int)
      exact_mod_cast hi
    · show (j : Int) < (g.width : Int)
      exact_mod_cast hj
  · rintro ⟨h1, h2, h3, h4⟩
    refine List.mem_flatMap.mpr ⟨q.1.toNat, ?_, ?_⟩
    · rw [List.mem_range]; omega
    · refine List.mem_map.mpr ⟨q.2.toNat, ?_, ?_⟩
      · rw [List.mem_range]; omega
      · obtain ⟨a, b⟩ := q
        simp only [Prod.mk.injEq]
        refine ⟨?_, ?_⟩
        · show (a.toNat : Int) = a
          omega
        · show (b.toNat : Int) = b
          omega

theorem mem_allPossible (g : GridGraph) (path : List Pos) (q : Pos) :
    q ∈ allPossible g path ↔
      (0 ≤ q.1 ∧ q.1 < (g.height : Int) ∧ 0 ≤ q.2 ∧ q.2 < (g.width : Int)) ∧
      q ∉ path ∧ cellStateAt g q.1 q.2 ≠ CellState.CURRENT ∧
      cellStateAt g q.1 q.2 ≠ CellState.GOAL ∧
      cellStateAt g q.1 q.2 ≠ CellState.INACTIVE := by
  rw [allPossible, List.mem_filter, mem_gridCoords]
  simp only [Bool.and_eq_true, decide_eq_true_eq]
  tauto

/-- Reading a cell state through the total getD accessor in terms of
the partial get? accessor. -/
theorem cellStateAt_as_get? (g : GridGraph) (r c : Int) :
    cellStateAt g r c =
      ((((g.cells.get? c.toNat).getD []).get? r.toNat).getD Cell.init).state := by
  rw [cellStateAt, getD_as_get?, getD_as_get?]

/-- Overwriting one in-bounds cell changes exactly the states read at
that slot: every other slot reads as before, and the target slot reads
the new cell's state. -/
theorem cellStateAt_set_lt (g : GridGraph) (colL : List Cell) (ci ri : Nat)
    (cell : Cell)
    (hcol : g.cells.get? ci = some colL) (hri : ri < colL.length) :
    (∀ r c : Int, ¬ (c.toNat = ci ∧ r.toNat = ri) →
      cellStateAt { g with cells := g.cells.set ci (colL.set ri cell) } r c
        = cellStateAt g r c) ∧
    (∀ r c : Int, c.toNat = ci → r.toNat = ri →
      cellStateAt { g with cells := g.cells.set ci (colL.set ri cell) } r c
        = cell.state) := by
  have hciLt : ci < g.cells.length := (List.get?_eq_some.mp hcol).1
  constructor
  · intro r c hne
    rw [cellStateAt_as_get?, cellStateAt_as_get?]
    by_cases hc : c.toNat = ci
    · have hr : r.toNat ≠ ri := fun h => hne ⟨hc, h⟩
      show ((((g.cells.set ci (colL.set ri cell)).get? c.toNat).getD
        []).get? r.toNat |>.getD Cell.init).state = _
      rw [hc, List.get?_set_eq_of_lt _ hciLt, hcol]
      simp only [Option.getD_some]
      rw [List.get?_set_ne _ _ (Ne.symm hr)]
    · show ((((g.cells.set ci (colL.set ri cell)).get? c.toNat).getD
        []).get? r.toNat |>.getD Cell.init).state = _
      rw [List.get?_set_ne _ _ (Ne.symm hc)]
  · intro r c hc hr
    rw [cellStateAt_as_get?]
    show ((((g.cells.set ci (colL.set ri cell)).get? c.toNat).getD
      []).get? r.toNat |>.getD Cell.init).state = _
    rw [hc, hr, List.get?_set_eq_of_lt _ hciLt]
    simp only [Option.getD_some]
    rw [List.get?_set_eq_of_lt _ hri]
    simp only [Option.getD_some]

/-- The marking loop of add_n_inactives on in-bounds coordinates:
it succeeds, preserves the dimensions and markers, leaves every slot
not named in the list unchanged, and can only ever change a state to
INACTIVE. -/
theorem markLoop_spec (ps : List Pos) :
    ∀ (g : GridGraph), g.WFdims →
    (∀ q ∈ ps, 0 ≤ q.1 ∧ q.1 < (g.height : Int) ∧ 0 ≤ q.2 ∧ q.2 < (g.width : Int)) →
    ∃ g2, markLoop ps g = .ok g2 ∧
      g2.WFdims ∧ g2.width = g.width ∧ g2.height = g.height ∧
      g2.current = g.current ∧ g2.goal = g.goal ∧
      (∀ r c : Int, (∀ q ∈ ps, ¬ (q.1.toNat = r.toNat ∧ q.2.toNat = c.toNat)) →
        cellStateAt g2 r c = cellStateAt g r c) ∧
      (∀ r c : Int, cellStateAt g2 r c = cellStateAt g r c ∨
        cellStateAt g2 r c = CellState.INACTIVE) := by
  induction ps with
  | nil =>
    intro g hWF _
    exact ⟨g, rfl, hWF, rfl, rfl, rfl, rfl, fun _ _ _ => rfl, fun _ _ => Or.inl rfl⟩
  | cons q qs ih =>
    intro g hWF hb
    obtain ⟨hq1, hq2, hq3, hq4⟩ := hb q (List.mem_cons_self ..)
    obtain ⟨colL, cell, hcol, hcell, hrun, hlen, hcols⟩ :=
      modifyCell_dims (w := g.width) (h := g.height) g q.1 q.2
        (fun c => c.change_state .INACTIVE) hWF.1 hWF.2 hq1 hq2 hq3 hq4
    have hriLt : q.1.toNat < colL.length := (List.get?_eq_some.mp hcell).1
    have hset := cellStateAt_set_lt g colL q.2.toNat q.1.toNat
      (cell.change_state .INACTIVE) hcol hriLt
    have hstep : markLoop (q :: qs) g = markLoop qs
        { g with cells := g.cells.set q.2.toNat (colL.set q.1.toNat (cell.change_state .INACTIVE)) } := by
      simp only [markLoop, hrun]
    obtain ⟨g2, hml, hWF2, hw2, hh2, hc2, hg2, hunch, hor⟩ :=
      ih { g with cells := g.cells.set q.2.toNat (colL.set q.1.toNat (cell.change_state .INACTIVE)) }
        ⟨hlen, hcols⟩ (fun x hx => hb x (List.mem_cons_of_mem _ hx))
    refine ⟨g2, hstep.trans hml, hWF2, hw2, hh2, hc2, hg2, ?_, ?_⟩
    · intro r c hnc
      have h1 := hunch r c (fun x hx => hnc x (List.mem_cons_of_mem _ hx))
      have hq' := hnc q (List.mem_cons_self ..)
      have h2 := hset.1 r c (fun hx => hq' ⟨hx.2.symm, hx.1.symm⟩)
      exact h1.trans h2
    · intro r c
      rcases hor r c with h | h
      · by_cases htgt : c.toNat = q.2.toNat ∧ r.toNat = q.1.toNat
        · exact Or.inr (h.trans (hset.2 r c htgt.1 htgt.2))
        · exact Or.inl (h.trans (hset.1 r c htgt))
      · exact Or.inr h

/-- C10: on a grid whose goal is unreachable from current, the hybrid
search returns None, so add_n_inactives raises a TypeError (iterating
None) before any cell is touched: the error carries the grid exactly
as it was before the call — cell states, current and goal included. -/
theorem add_n_inactives_unsolvable (g : GridGraph) (s t : Pos) (n : Nat)
    (pick : Nat → Nat) (shuf : Nat → List Pos → List Pos)
    (sampler : List Pos → Nat → List Pos)
    (hshuf : ∀ m l, (shuf m l).Perm l)
    (hcur : g.current = some s) (hgoal : g.goal = some t)
    (hnr : ¬ ReachesFrom g s t) :
    add_n_inactives g n pick shuf sampler = .error (.typeError, g) := by
  rcases find_path_greedy_semirandom_bfs_spec g s t hcur hgoal pick shuf hshuf with
    ⟨p, hres, _, _, hchain, _⟩ | ⟨hres, _⟩
  · exact absurd (Relation.ReflTransGen.mono (fun a b hab => hab.1) hchain) hnr
  · have hsnd := find_path_greedy_semirandom_bfs_snd g pick shuf
    rcases hrun : find_path_greedy_semirandom_bfs g pick shuf with ⟨r, g1⟩
    rw [hrun] at hres hsnd
    have hr : r = none := hres
    have hg1 : g1 = g := hsnd
    subst hr
    subst hg1
    simp [add_n_inactives, hrun]

/-- A 1-row, 2-column grid whose goal cell is INACTIVE: the goal is
unreachable from the current position. -/
def gUnsolv : GridGraph :=
  { cells := [[⟨.CURRENT, some .ACTIVE⟩], [⟨.INACTIVE, some .ACTIVE⟩]]
    width := 2, height := 1, current := some (0, 0), goal := some (0, 1) }

/-- C10 witness: add_n_inactives on the concrete unsolvable grid
raises the TypeError with the untouched grid; the unreachability
hypothesis is discharged by inspecting the single possible step. -/
theorem add_n_inactives_unsolvable_witness :
    add_n_inactives gUnsolv 1 (fun _ => 0) (fun _ l => l) (fun l k => l.take k)
      = .error (.typeError, gUnsolv) := by
  apply add_n_inactives_unsolvable gUnsolv (0, 0) (0, 1) 1 (fun _ => 0)
    (fun _ l => l) (fun l k => l.take k) (fun _ l => List.Perm.refl l) rfl rfl
  intro h
  rcases Relation.ReflTransGen.cases_tail h with h2 | ⟨b, _, hstep⟩
  · exact absurd h2 (by decide)
  · have hmem := (mem_neighborsRaw gUnsolv b.1 b.2 (0, 1)).mp hstep
    exact hmem.2.2 (by decide)

/-- C4: whenever the hybrid search returns a witness path, for every n
and every outcome of the sampling (random.sample returns elements of
its input list), add_n_inactives succeeds and marks INACTIVE only
in-bounds cells off the witness path whose state was none of CURRENT,
GOAL or INACTIVE; every cell of the witness path keeps its state, and
the goal is still reachable from the current position afterwards. -/
theorem add_n_inactives_preserves_path (g : GridGraph) (s t : Pos) (n : Nat)
    (pick : Nat → Nat) (shuf : Nat → List Pos → List Pos)
    (sampler : List Pos → Nat → List Pos)
    (hshuf : ∀ m l, (shuf m l).Perm l)
    (hsampler : ∀ l k, ∀ x ∈ sampler l k, x ∈ l)
    (hWF : g.WFdims) (hcur : g.current = some s) (hgoal : g.goal = some t)
    (hs : s ∈ allPositions g) (p : List Pos)
    (hres : (find_path_greedy_semirandom_bfs g pick shuf).1 = some p) :
    ∃ g2, add_n_inactives g n pick shuf sampler = .ok g2 ∧
      g2.width = g.width ∧ g2.height = g.height ∧
      g2.current = g.current ∧ g2.goal = g.goal ∧
      (∀ q ∈ p, cellStateAt g2 q.1 q.2 = cellStateAt g q.1 q.2) ∧
      (∀ q ∈ allPositions g, cellStateAt g2 q.1 q.2 ≠ cellStateAt g q.1 q.2 →
        q ∉ p ∧ cellStateAt g q.1 q.2 ≠ CellState.CURRENT ∧
        cellStateAt g q.1 q.2 ≠ CellState.GOAL ∧
        cellStateAt g q.1 q.2 ≠ CellState.INACTIVE ∧
        cellStateAt g2 q.1 q.2 = CellState.INACTIVE) ∧
      ReachesFrom g2 s t := by
  rcases find_path_greedy_semirandom_bfs_spec g s t hcur hgoal pick shuf hshuf with
    ⟨p', hres', hh, hl, hchain, hnb⟩ | ⟨hres', _⟩
  swap
  · rw [hres] at hres'
    cases hres'
  have hp : p = p' := Option.some.inj (hres.symm.trans hres')
  subst hp
  have hpA : ∀ q ∈ p, q ∈ allPositions g := by
    intro q hq
    rcases hnb q hq with h | ⟨u, hu⟩
    · exact h ▸ hs
    · exact neighborsRaw_subset_allPositions g u.1 u.2 q hu
  have hsnd := find_path_greedy_semirandom_bfs_snd g pick shuf
  rcases hrun : find_path_greedy_semirandom_bfs g pick shuf with ⟨r, g1⟩
  rw [hrun] at hres hsnd
  have hr : r = some p := hres
  have hg1 : g = g1 := hsnd.symm
  subst hr
  subst hg1
  set CH : List Pos := sampler (allPossible g p)
    (if n > (allPossible g p).length then (allPossible g p).length else n) with hCH
  have hbounds : ∀ q ∈ CH,
      0 ≤ q.1 ∧ q.1 < (g.height : Int) ∧ 0 ≤ q.2 ∧ q.2 < (g.width : Int) := by
    intro q hq
    exact ((mem_allPossible g p q).mp (hsampler _ _ q hq)).1
  obtain ⟨g2, hml, hWF2, hw2, hh2, hc2, hg2, hunch, hor⟩ :=
    markLoop_spec CH g hWF hbounds
  have hpunch : ∀ q ∈ p, cellStateAt g2 q.1 q.2 = cellStateAt g q.1 q.2 := by
    intro q hq
    have hqb := (mem_allPositions g q).mp (hpA q hq)
    refine hunch q.1 q.2 ?_
    intro x hx hcoll
    obtain ⟨hxb, hxnp, _, _, _⟩ := (mem_allPossible g p x).mp (hsampler _ _ x hx)
    have hx1 : x.1 = q.1 := by
      have h1 := hcoll.1
      have h2 := hxb.1
      have h3 := hqb.1
      omega
    have hx2 : x.2 = q.2 := by
      have h1 := hcoll.2
      have h2 := hxb.2.2.1
      have h3 := hqb.2.2.1
      omega
    have hxq : x = q := Prod.ext_iff.mpr ⟨hx1, hx2⟩
    exact hxnp (hxq ▸ hq)
  have hmarks : ∀ q ∈ allPositions g,
      cellStateAt g2 q.1 q.2 ≠ cellStateAt g q.1 q.2 →
      q ∉ p ∧ cellStateAt g q.1 q.2 ≠ CellState.CURRENT ∧
      cellStateAt g q.1 q.2 ≠ CellState.GOAL ∧
      cellStateAt g q.1 q.2 ≠ CellState.INACTIVE ∧
      cellStateAt g2 q.1 q.2 = CellState.INACTIVE := by
    intro q hqA hne
    have hqb := (mem_allPositions g q).mp hqA
    by_cases hcol : ∀ x ∈ CH, ¬ (x.1.toNat = q.1.toNat ∧ x.2.toNat = q.2.toNat)
    · exact absurd (hunch q.1 q.2 hcol) hne
    · push_neg at hcol
      obtain ⟨x, hx, hc⟩ := hcol
      obtain ⟨hxb, hxnp, hxC, hxG, hxI⟩ :=
        (mem_allPossible g p x).mp (hsampler _ _ x hx)
      have hx1 : x.1 = q.1 := by
        have h1 := hc.1
        have h2 := hxb.1
        have h3 := hqb.1
        omega
      have hx2 : x.2 = q.2 := by
        have h1 := hc.2
        have h2 := hxb.2.2.1
        have h3 := hqb.2.2.1
        omega
      have hxq : x = q := Prod.ext_iff.mpr ⟨hx1, hx2⟩
      subst hxq
      refine ⟨hxnp, hxC, hxG, hxI, ?_⟩
      rcases hor x.1 x.2 with h | h
      · exact absurd h hne
      · exact h
  have hreach2 : ReachesFrom g2 s t := by
    refine Relation.ReflTransGen.mono ?_ hchain
    intro a b hab
    obtain ⟨hbnb, hbp⟩ := hab
    show b ∈ neighborsRaw g2 a.1 a.2
    rw [mem_neighborsRaw] at hbnb ⊢
    refine ⟨hbnb.1, ?_, ?_⟩
    · rw [hh2, hw2]
      exact hbnb.2.1
    · rw [hpunch b hbp]
      exact hbnb.2.2
  refine ⟨g2, ?_, hw2, hh2, hc2, hg2, hpunch, hmarks, hreach2⟩
  simp only [add_n_inactives, hrun]
  rw [← hCH]
  exact hml

/-- C4 witness: the preservation statement applied to the concrete
1 by 2 grid, with the hybrid search's returned path, the well-formedness
and in-bounds hypotheses, and the search result all evaluated. -/
theorem add_n_inactives_preserves_path_witness :
    ∃ g2, add_n_inactives gSearch 1 (fun _ => 0) (fun _ l => l)
        (fun l k => l.take k) = .ok g2 ∧
      g2.width = gSearch.width ∧ g2.height = gSearch.height ∧
      g2.current = gSearch.current ∧ g2.goal = gSearch.goal ∧
      (∀ q ∈ [((0 : Int), (0 : Int)), ((0 : Int), (1 : Int))],
        cellStateAt g2 q.1 q.2 = cellStateAt gSearch q.1 q.2) ∧
      (∀ q ∈ allPositions gSearch,
        cellStateAt g2 q.1 q.2 ≠ cellStateAt gSearch q.1 q.2 →
        q ∉ [((0 : Int), (0 : Int)), ((0 : Int), (1 : Int))] ∧
        cellStateAt gSearch q.1 q.2 ≠ CellState.CURRENT ∧
        cellStateAt gSearch q.1 q.2 ≠ CellState.GOAL ∧
        cellStateAt gSearch q.1 q.2 ≠ CellState.INACTIVE ∧
        cellStateAt g2 q.1 q.2 = CellState.INACTIVE) ∧
      ReachesFrom g2 (0, 0) (0, 1) :=
  add_n_inactives_preserves_path gSearch (0, 0) (0, 1) 1 (fun _ => 0)
    (fun _ l => l) (fun l k => l.take k) (fun _ l => List.Perm.refl l)
    (fun _ _ _ hx => List.mem_of_mem_take hx) (by decide) rfl rfl (by decide)
    [(0, 0), (0, 1)] (by decide)

end GraphsRepo
